import Mathlib

/-!
Shallow embedding of the `cascara` cache (a TinyLFU-admission, sampling-eviction,
TTL-aware in-memory cache) together with proofs about its operations.

Conventions of the embedding:
* User keys are modelled at the hashed-key level: the key-hash capability
  (`SipHasherBuilder` in the source) is injected and out of scope, so keys in the
  model are already the 64-bit identifiers, represented as `Nat`.
* Wall-clock time is modelled at second granularity (the granularity of the
  TTL subsystem: `Duration::as_secs`, `storage_bucket`): a `SystemTime` is the
  number of whole seconds since the UNIX epoch (`Nat`), a `Duration` is a number
  of whole seconds (`Nat`).  Every operation that reads the clock takes the
  current time `now` as an explicit argument.
* The randomness source of `Storage::sample` is injected: the five uniform
  draws of resident-slot indices appear as an explicit `draws : List Nat`.
* Rust panics (`assert!`, `unreachable!`, `expect`) are modelled by `Option`:
  a construction or operation that would panic returns `none`.
-/

namespace Cascara

/-! ### Frequency estimator: `src/tiny_lfu.rs` -/

/-- Max window size before sketcher is reset (`MAX_WINDOW_SIZE`). -/
def MAX_WINDOW_SIZE : Nat := 10000

/-- Modelled from the spec: the count-min sketch of the external
`probabilistic_collections` crate is "a counting sketch giving approximate
non-negative per-key counts"; it is modelled as an exact per-key counter
(`Nat → Int`), the idealization in which the sketch makes no collision error.
`CuckooFilter`, the doorkeeper, is likewise "a membership filter marking seen
at least once since last reset" and is modelled as an exact set of keys.
State of `TinyLFUCache` (`src/tiny_lfu.rs`). -/
structure TinyLFUCache where
  sketcher : Nat → Int
  filter : Finset Nat
  increments : Nat
  window_size : Nat
  actual_window : Finset Nat
  previous_window : Finset Nat

/-- `TinyLFUCache::new`: panics (`none`) when `window_size == 0`, otherwise caps
the window at `MAX_WINDOW_SIZE` and starts with empty sketch, filter, windows. -/
def TinyLFUCache.new (window_size : Nat) : Option TinyLFUCache :=
  if window_size = 0 then none
  else some
    { sketcher := fun _ => 0
      filter := ∅
      increments := 0
      window_size := min window_size MAX_WINDOW_SIZE
      actual_window := ∅
      previous_window := ∅ }

/-- `TinyLFUCache::reset_sketcher`: every key of the previous window has its
whole count subtracted (`insert(&item, -hits)`), every key of the actual window
has `hits/2 + hits%2` subtracted (Rust `/` and `%` on `i64` truncate toward
zero, hence `Int.tdiv`/`Int.tmod`); the actual window is drained into the
previous window. -/
def TinyLFUCache.reset_sketcher (t : TinyLFUCache) : TinyLFUCache :=
  { t with
    sketcher := fun k =>
      if k ∈ t.previous_window then t.sketcher k - t.sketcher k
      else if k ∈ t.actual_window then
        t.sketcher k - (Int.tdiv (t.sketcher k) 2 + Int.tmod (t.sketcher k) 2)
      else t.sketcher k
    actual_window := ∅
    previous_window := t.actual_window }

/-- `TinyLFU::estimate` for `TinyLFUCache`: sketch count, plus one when the
doorkeeper contains the key. -/
def TinyLFUCache.estimate (t : TinyLFUCache) (k : Nat) : Int :=
  t.sketcher k + (if k ∈ t.filter then 1 else 0)

/-- `TinyLFU::reset` for `TinyLFUCache`: age the sketch, clear the doorkeeper,
zero the increment counter. -/
def TinyLFUCache.reset (t : TinyLFUCache) : TinyLFUCache :=
  let t := t.reset_sketcher
  { t with filter := ∅, increments := 0 }

/-- `TinyLFU::increment` for `TinyLFUCache`: reset first when the window is
exhausted; first sighting only enters the doorkeeper; otherwise bump the sketch
and move the key into the actual window. The increment counter always advances. -/
def TinyLFUCache.increment (t : TinyLFUCache) (k : Nat) : TinyLFUCache :=
  let t := if t.increments ≥ t.window_size then t.reset else t
  let t :=
    if k ∉ t.filter then { t with filter := insert k t.filter }
    else
      { t with
        sketcher := fun k' => if k' = k then t.sketcher k' + 1 else t.sketcher k'
        previous_window := t.previous_window.erase k
        actual_window := insert k t.actual_window }
  { t with increments := t.increments + 1 }

/-- `TinyLFU::clear` for `TinyLFUCache`: empty the sketch, the doorkeeper and
the counter (the window sets are not touched by the source). -/
def TinyLFUCache.clear (t : TinyLFUCache) : TinyLFUCache :=
  { t with sketcher := fun _ => 0, filter := ∅, increments := 0 }

/-- The three mutating estimator calls, for stating reachability. -/
inductive TinyOp where
  | inc (k : Nat)
  | reset
  | clear

/-- Apply one estimator call. -/
def applyTinyOp (t : TinyLFUCache) : TinyOp → TinyLFUCache
  | .inc k => t.increment k
  | .reset => t.reset
  | .clear => t.clear

/-- Run a sequence of estimator calls. -/
def runTiny (t : TinyLFUCache) (ops : List TinyOp) : TinyLFUCache :=
  ops.foldl applyTinyOp t

/-! Invariants of the estimator. -/

/-- All sketch counts are non-negative. -/
def TinyLFUCache.SketchNonneg (t : TinyLFUCache) : Prop :=
  ∀ k, 0 ≤ t.sketcher k

theorem reset_sketcher_nonneg {t : TinyLFUCache} (h : t.SketchNonneg) :
    t.reset_sketcher.SketchNonneg := by
  intro k
  simp only [TinyLFUCache.reset_sketcher]
  split
  · simp
  · split
    · have hk := h k
      have hd : 0 ≤ Int.tdiv (t.sketcher k) 2 + Int.tmod (t.sketcher k) 2 ∧
          Int.tdiv (t.sketcher k) 2 + Int.tmod (t.sketcher k) 2 ≤ t.sketcher k := by
        obtain ⟨n, hn⟩ := Int.eq_ofNat_of_zero_le hk
        rw [hn]
        have h1 : Int.tdiv (n : Int) 2 = ((n / 2 : Nat) : Int) := by
          simp [Int.tdiv]
        have h2 : Int.tmod (n : Int) 2 = ((n % 2 : Nat) : Int) := by
          simp [Int.tmod]
        rw [h1, h2]
        have := Nat.div_add_mod n 2
        constructor
        · positivity
        · push_cast
          omega
      omega
    · exact h k

theorem reset_nonneg {t : TinyLFUCache} (h : t.SketchNonneg) :
    t.reset.SketchNonneg := by
  intro k
  simpa [TinyLFUCache.reset] using reset_sketcher_nonneg h k

theorem increment_nonneg {t : TinyLFUCache} (h : t.SketchNonneg) (k : Nat) :
    (t.increment k).SketchNonneg := by
  intro k'
  unfold TinyLFUCache.increment
  have h1 : (if t.increments ≥ t.window_size then t.reset else t).SketchNonneg := by
    split
    · exact reset_nonneg h
    · exact h
  set t1 := if t.increments ≥ t.window_size then t.reset else t with ht1
  simp only
  split
  · exact h1 k'
  · simp only
    split
    · have := h1 k'
      omega
    · exact h1 k'

theorem clear_nonneg (t : TinyLFUCache) : t.clear.SketchNonneg := by
  intro k; simp [TinyLFUCache.clear]

theorem runTiny_nonneg {t : TinyLFUCache} (h : t.SketchNonneg) (ops : List TinyOp) :
    (runTiny t ops).SketchNonneg := by
  induction ops generalizing t with
  | nil => exact h
  | cons op rest ih =>
    cases op with
    | inc k => exact ih (increment_nonneg h k)
    | reset => exact ih (reset_nonneg h)
    | clear => exact ih (clear_nonneg t)

/-- The actual and previous windows are disjoint. -/
def TinyLFUCache.WindowsDisjoint (t : TinyLFUCache) : Prop :=
  ∀ k, k ∈ t.actual_window → k ∉ t.previous_window

theorem reset_disjoint (t : TinyLFUCache) : t.reset.WindowsDisjoint := by
  intro k hk
  simp [TinyLFUCache.reset, TinyLFUCache.reset_sketcher] at hk

theorem increment_disjoint {t : TinyLFUCache} (h : t.WindowsDisjoint) (k : Nat) :
    (t.increment k).WindowsDisjoint := by
  unfold TinyLFUCache.increment
  have h1 : (if t.increments ≥ t.window_size then t.reset else t).WindowsDisjoint := by
    split
    · exact reset_disjoint t
    · exact h
  set t1 := if t.increments ≥ t.window_size then t.reset else t with ht1
  by_cases hf : k ∉ t1.filter
  · simp only [if_pos hf]
    intro k' hk'
    exact h1 k' hk'
  · simp only [if_neg hf]
    intro k' hk'
    simp only [Finset.mem_insert] at hk'
    rcases hk' with rfl | hk'
    · exact Finset.not_mem_erase k' t1.previous_window
    · rw [Finset.mem_erase]
      push_neg
      intro _
      exact h1 k' hk'

theorem clear_disjoint {t : TinyLFUCache} (h : t.WindowsDisjoint) :
    t.clear.WindowsDisjoint := h

theorem runTiny_disjoint {t : TinyLFUCache} (h : t.WindowsDisjoint) (ops : List TinyOp) :
    (runTiny t ops).WindowsDisjoint := by
  induction ops generalizing t with
  | nil => exact h
  | cons op rest ih =>
    cases op with
    | inc k => exact ih (increment_disjoint h k)
    | reset => exact ih (reset_disjoint t)
    | clear => exact ih (clear_disjoint h)

theorem new_nonneg {w : Nat} {t : TinyLFUCache} (h : TinyLFUCache.new w = some t) :
    t.SketchNonneg := by
  unfold TinyLFUCache.new at h
  split at h
  · cases h
  · cases h; intro k; simp

theorem new_disjoint {w : Nat} {t : TinyLFUCache} (h : TinyLFUCache.new w = some t) :
    t.WindowsDisjoint := by
  unfold TinyLFUCache.new at h
  split at h
  · cases h
  · cases h; intro k hk; simp at hk

theorem tdiv_add_tmod_eq_ceil {h : Int} (hn : 0 ≤ h) :
    Int.tdiv h 2 + Int.tmod h 2 = Int.tdiv (h + 1) 2 := by
  obtain ⟨n, hn'⟩ := Int.eq_ofNat_of_zero_le hn
  rw [hn']
  have h1 : Int.tdiv (n : Int) 2 = ((n / 2 : Nat) : Int) := by simp [Int.tdiv]
  have h2 : Int.tmod (n : Int) 2 = ((n % 2 : Nat) : Int) := by simp [Int.tmod]
  have h3 : ((n : Int) + 1) = ((n + 1 : Nat) : Int) := by push_cast; ring
  have h4 : Int.tdiv ((n + 1 : Nat) : Int) 2 = (((n + 1) / 2 : Nat) : Int) := by
    simp [Int.tdiv]
  rw [h1, h2, h3, h4]
  have h5 : n / 2 + n % 2 = (n + 1) / 2 := by omega
  exact_mod_cast congrArg (Nat.cast : Nat → Int) h5

/-- C6: in every reachable estimator state, `reset()` subtracts the entire
sketch count (down to zero) for every key in the previous-window set and drops
that record, subtracts `⌈count/2⌉` (written `(count+1).tdiv 2` for the
non-negative counts at hand) from every key of the current-window set and moves
that key to the previous-window set, clears the doorkeeper filter and zeroes
the increment counter. -/
theorem reset_ages_windows (w : Nat) (t0 : TinyLFUCache) (ops : List TinyOp)
    (hnew : TinyLFUCache.new w = some t0) :
    (∀ k ∈ (runTiny t0 ops).previous_window,
        (runTiny t0 ops).reset.sketcher k = 0 ∧
        k ∉ (runTiny t0 ops).reset.previous_window ∧
        k ∉ (runTiny t0 ops).reset.actual_window) ∧
    (∀ k ∈ (runTiny t0 ops).actual_window,
        (runTiny t0 ops).reset.sketcher k =
          (runTiny t0 ops).sketcher k - Int.tdiv ((runTiny t0 ops).sketcher k + 1) 2 ∧
        k ∈ (runTiny t0 ops).reset.previous_window) ∧
    (runTiny t0 ops).reset.filter = ∅ ∧
    (runTiny t0 ops).reset.increments = 0 := by
  have hdisj := runTiny_disjoint (new_disjoint hnew) ops
  have hpos := runTiny_nonneg (new_nonneg hnew) ops
  set t := runTiny t0 ops with ht
  refine ⟨?_, ?_, rfl, rfl⟩
  · intro k hk
    refine ⟨?_, ?_, ?_⟩
    · simp [TinyLFUCache.reset, TinyLFUCache.reset_sketcher, hk]
    · show k ∉ t.actual_window
      intro hmem
      exact hdisj k hmem hk
    · show k ∉ (∅ : Finset Nat)
      simp
  · intro k hk
    have hk' : k ∉ t.previous_window := hdisj k hk
    constructor
    · show (if k ∈ t.previous_window then _ else if k ∈ t.actual_window then _ else _) = _
      rw [if_neg hk', if_pos hk, tdiv_add_tmod_eq_ceil (hpos k)]
    · exact hk

/-- A fresh estimator with window size 10 (the value of `TinyLFUCache.new 10`). -/
def tinyFresh10 : TinyLFUCache := ⟨fun _ => 0, ∅, 0, 10, ∅, ∅⟩

/-- Witness for `reset_ages_windows` at window 10 after three increments of
key 1 (count 2, actual window `{1}`): halving leaves count 1 in the new
previous window. -/
theorem reset_ages_windows_witness :
    TinyLFUCache.new 10 = some tinyFresh10 ∧
    (1 ∈ (runTiny tinyFresh10 [.inc 1, .inc 1, .inc 1]).actual_window) ∧
    ((runTiny tinyFresh10 [.inc 1, .inc 1, .inc 1]).reset.sketcher 1 =
      (runTiny tinyFresh10 [.inc 1, .inc 1, .inc 1]).sketcher 1 -
        Int.tdiv ((runTiny tinyFresh10 [.inc 1, .inc 1, .inc 1]).sketcher 1 + 1) 2 ∧
      1 ∈ (runTiny tinyFresh10 [.inc 1, .inc 1, .inc 1]).reset.previous_window) :=
  ⟨rfl, by decide,
    (reset_ages_windows 10 tinyFresh10 [.inc 1, .inc 1, .inc 1] rfl).2.1 1 (by decide)⟩

/-- A fresh estimator with window size 1 (the value of `TinyLFUCache.new 1`). -/
def tinyFresh1 : TinyLFUCache := ⟨fun _ => 0, ∅, 0, 1, ∅, ∅⟩

/-- C7: for every key and every estimator state reachable from a fresh
estimator by increment, reset and clear calls, `estimate` equals the sketch
count plus 1 when the doorkeeper contains the key, and is non-negative. -/
theorem estimate_eq_and_nonneg (w : Nat) (t0 : TinyLFUCache) (ops : List TinyOp) (k : Nat)
    (hnew : TinyLFUCache.new w = some t0) :
    (runTiny t0 ops).estimate k =
      (runTiny t0 ops).sketcher k +
        (if k ∈ (runTiny t0 ops).filter then 1 else 0) ∧
    0 ≤ (runTiny t0 ops).estimate k := by
  refine ⟨rfl, ?_⟩
  have h := runTiny_nonneg (new_nonneg hnew) ops k
  unfold TinyLFUCache.estimate
  split <;> omega

/-- Witness for `estimate_eq_and_nonneg` after two increments and a reset. -/
theorem estimate_eq_and_nonneg_witness :
    TinyLFUCache.new 1 = some tinyFresh1 ∧
    0 ≤ (runTiny tinyFresh1 [.inc 7, .inc 7, .reset]).estimate 7 :=
  ⟨rfl, (estimate_eq_and_nonneg 1 tinyFresh1 [.inc 7, .inc 7, .reset] 7 rfl).2⟩

/-! ### Metrics: `src/metrics.rs` -/

/-- Number of rows of the metrics histogram (`METRICS`). -/
def METRICS : Nat := 6

/-- The five metric event kinds (`MetricType`). -/
inductive MetricType where
  | hit
  | miss
  | keyInsert
  | keyUpdate
  | keyEvict
deriving DecidableEq

/-- `MetricType::metric_idx`. -/
def MetricType.metricIdx : MetricType → Nat
  | .hit => 0
  | .miss => 1
  | .keyInsert => 2
  | .keyUpdate => 3
  | .keyEvict => 4

/-- `Metrics`: a fixed `METRICS × 256` histogram, modelled as a function from
row index and slot index to the accumulated count. -/
structure Metrics where
  all : Nat → Nat → Nat

/-- `Metrics::new`. -/
def Metrics.new : Metrics := ⟨fun _ _ => 0⟩

/-- `Metrics::insert`: add `delta` at slot `(k % 25) * 10` of the kind's row. -/
def Metrics.insert (m : Metrics) (metric : MetricType) (k : Nat) (delta : Nat) : Metrics :=
  ⟨fun r s => m.all r s + if r = metric.metricIdx ∧ s = (k % 25) * 10 then delta else 0⟩

/-- `Metrics::get`: the sum of the kind's row. -/
def Metrics.get (m : Metrics) (metric : MetricType) : Nat :=
  ∑ i in Finset.range 256, m.all metric.metricIdx i

/-- `Metrics::hits`. -/
def Metrics.hits (m : Metrics) : Nat := m.get .hit

/-- `Metrics::misses`. -/
def Metrics.misses (m : Metrics) : Nat := m.get .miss

/-- `Metrics::keys_inserted`. -/
def Metrics.keys_inserted (m : Metrics) : Nat := m.get .keyInsert

/-- `Metrics::keys_updated`. -/
def Metrics.keys_updated (m : Metrics) : Nat := m.get .keyUpdate

/-- `Metrics::keys_evicted`. -/
def Metrics.keys_evicted (m : Metrics) : Nat := m.get .keyEvict

/-- `Metrics::clear`. -/
def Metrics.clear (_ : Metrics) : Metrics := ⟨fun _ _ => 0⟩

theorem Metrics.get_insert (m : Metrics) (t : MetricType) (k delta : Nat) (t' : MetricType) :
    (m.insert t k delta).get t' =
      m.get t' + if t'.metricIdx = t.metricIdx then delta else 0 := by
  unfold Metrics.get Metrics.insert
  rw [Finset.sum_add_distrib]
  have hsum :
      (∑ i in Finset.range 256,
          if t'.metricIdx = t.metricIdx ∧ i = (k % 25) * 10 then delta else 0) =
        if t'.metricIdx = t.metricIdx then delta else 0 := by
    by_cases h : t'.metricIdx = t.metricIdx
    · rw [if_pos h]
      have hcong :
          (∑ i in Finset.range 256,
              if t'.metricIdx = t.metricIdx ∧ i = (k % 25) * 10 then delta else 0) =
            ∑ i in Finset.range 256, if i = (k % 25) * 10 then delta else 0 := by
        refine Finset.sum_congr rfl ?_
        intro i _
        by_cases hi : i = (k % 25) * 10
        · rw [if_pos ⟨h, hi⟩, if_pos hi]
        · rw [if_neg (fun hc => hi hc.2), if_neg hi]
      rw [hcong, Finset.sum_ite_eq' (Finset.range 256) ((k % 25) * 10) (fun _ => delta)]
      have hb : (k % 25) * 10 ∈ Finset.range 256 := by
        have : k % 25 < 25 := Nat.mod_lt _ (by norm_num)
        simp only [Finset.mem_range]
        omega
      rw [if_pos hb]
    · rw [if_neg h]
      refine Finset.sum_eq_zero ?_
      intro i _
      rw [if_neg (fun hc => h hc.1)]
  rw [hsum]

/-! ### Expiration tracker: `src/ttl.rs` -/

/-- `storage_bucket`: the bucket id of an expiry instant is its whole-second
value; with time modelled in whole seconds this is the identity. -/
def storage_bucket (expiration_time : Nat) : Nat := expiration_time

/-- `ExpirationMap`: ordered map from bucket id to the set of hashed keys
expiring in that second, modelled as an association list of buckets, each
bucket a duplicate-free list of keys. -/
structure ExpirationMap where
  buckets : List (Nat × List Nat)

/-- `ExpirationMap::new`. -/
def ExpirationMap.new : ExpirationMap := ⟨[]⟩

/-- Add a key to the bucket with the given id, creating the bucket if absent
(the `HashSet` of the source keeps keys unique, hence the membership guard). -/
def bucketAdd : List (Nat × List Nat) → Nat → Nat → List (Nat × List Nat)
  | [], b, k => [(b, [k])]
  | (b', s) :: rest, b, k =>
    if b' = b then (b', if k ∈ s then s else k :: s) :: rest
    else (b', s) :: bucketAdd rest b k

/-- Remove a key from the bucket with the given id, reporting whether it was
present; a missing bucket reports `false`. -/
def bucketRemove : List (Nat × List Nat) → Nat → Nat → List (Nat × List Nat) × Bool
  | [], _, _ => ([], false)
  | (b', s) :: rest, b, k =>
    if b' = b then ((b', s.erase k) :: rest, decide (k ∈ s))
    else
      let p := bucketRemove rest b k
      ((b', s) :: p.1, p.2)

/-- `ExpirationMap::insert` (`Expiration for ExpirationMap`): a zero ttl records
nothing and returns `none`; otherwise the expiry instant is `now + expiration`
and the key joins that instant's bucket. -/
def ExpirationMap.insert (m : ExpirationMap) (k : Nat) (expiration : Nat) (now : Nat) :
    ExpirationMap × Option Nat :=
  if expiration = 0 then (m, none)
  else
    let expiration_time := now + expiration
    let bucket_num := storage_bucket expiration_time
    (⟨bucketAdd m.buckets bucket_num k⟩, some expiration_time)

/-- `ExpirationMap::remove`. -/
def ExpirationMap.remove (m : ExpirationMap) (k : Nat) (expiration_time : Nat) :
    ExpirationMap × Bool :=
  let p := bucketRemove m.buckets (storage_bucket expiration_time) k
  (⟨p.1⟩, p.2)

/-- `ExpirationMap::cleanup`: drain every bucket with id below
`storage_bucket now + 1` and return the union of their keys. -/
def ExpirationMap.cleanup (m : ExpirationMap) (now : Nat) : ExpirationMap × List Nat :=
  let bound := storage_bucket now + 1
  (⟨m.buckets.filter (fun p => !decide (p.1 < bound))⟩,
    ((m.buckets.filter (fun p => decide (p.1 < bound))).map Prod.snd).flatten)

/-- `ExpirationMap::clear`. -/
def ExpirationMap.clear (_ : ExpirationMap) : ExpirationMap := ⟨[]⟩

/-- `ExpirationMap::is_empty`. -/
def ExpirationMap.isEmptyMap (m : ExpirationMap) : Bool := m.buckets.isEmpty

/-! ### Resident store: `src/store.rs` -/

/-- `SAMPLES_NUM`: how many draws are inspected during victim selection. -/
def SAMPLES_NUM : Nat := 5

/-- `SampleItem`: a candidate victim (hashed key and its estimate). -/
structure SampleItem where
  key : Nat
  estimate : Int
deriving DecidableEq

/-- `SampleItem::new`. -/
def SampleItem.new (key : Nat) (estimate : Int) : SampleItem := ⟨key, estimate⟩

/-- `Ord for SampleItem`: order by estimate, ties broken by key. -/
def SampleItem.cmp (a b : SampleItem) : Ordering :=
  (compare a.estimate b.estimate).then (compare a.key b.key)

/-- `Item`: a stored entry (optional expiry instant, key, value). -/
structure Item (V : Type) where
  expiration_time : Option Nat
  k : Nat
  v : V
deriving DecidableEq

/-- `Item::new`: a fresh entry has no expiry. -/
def Item.new (k : Nat) (v : V) : Item V := ⟨none, k, v⟩

/-- `Storage`: insertion-ordered map (`IndexMap`, here an association list with
pairwise-distinct keys), the expiration tracker and the fixed capacity. -/
structure Storage (V : Type) where
  data : List (Nat × Item V)
  expiration_map : ExpirationMap
  capacity : Nat

/-- `Storage::with_capacity`. -/
def Storage.with_capacity (capacity : Nat) : Storage V :=
  ⟨[], ExpirationMap.new, capacity⟩

/-- Look a key up in the association list (`IndexMap::get`). -/
def lookupData (data : List (Nat × Item V)) (k : Nat) : Option (Item V) :=
  (data.find? (fun p => decide (p.1 = k))).map Prod.snd

/-- `IndexMap`-style `swap_remove` of the element at index `i`: the last
element is moved into the hole. -/
def swapRemoveIdx (l : List α) (i : Nat) : List α :=
  match l.getLast? with
  | none => l
  | some z => if i + 1 = l.length then l.dropLast else (l.set i z).dropLast

/-- `IndexMap::remove` (swap-remove semantics): returns the removed entry and
the remaining list. -/
def dataSwapRemove (data : List (Nat × Item V)) (k : Nat) :
    Option (Item V) × List (Nat × Item V) :=
  match data.findIdx? (fun p => decide (p.1 = k)) with
  | none => (none, data)
  | some i => ((data.get? i).map Prod.snd, swapRemoveIdx data i)

/-- `Store::capacity` for `Storage`. -/
def Storage.cap (s : Storage V) : Nat := s.capacity

/-- `Store::len` for `Storage`. -/
def Storage.len (s : Storage V) : Nat := s.data.length

/-- `Store::is_empty` for `Storage`. -/
def Storage.isEmptyStore (s : Storage V) : Bool := decide (s.len = 0)

/-- `Store::room_left` for `Storage`. -/
def Storage.room_left (s : Storage V) : Nat := s.capacity - s.len

/-- `Storage::get`: a present entry whose expiry (if any) is not strictly in
the past; an entry past its expiry is treated as absent (lazy expiration). -/
def Storage.get (s : Storage V) (k : Nat) (now : Nat) : Option (Item V) :=
  match lookupData s.data k with
  | some item =>
    match item.expiration_time with
    | some expiration_time => if now > expiration_time then none else some item
    | none => some item
  | none => none

/-- `Storage::contains` (via `get`). -/
def Storage.contains (s : Storage V) (k : Nat) (now : Nat) : Bool :=
  (s.get k now).isSome

/-- `Storage::insert_with_ttl`: swap-remove any prior entry and deregister its
expiry, register the new expiry, append the new entry, return the superseded
entry. -/
def Storage.insert_with_ttl (s : Storage V) (k : Nat) (item : Item V)
    (expiration : Nat) (now : Nat) : Storage V × Option (Item V) :=
  let p := dataSwapRemove s.data k
  let em :=
    match p.1 with
    | some old_item =>
      match old_item.expiration_time with
      | some expiration_time => (s.expiration_map.remove k expiration_time).1
      | none => s.expiration_map
    | none => s.expiration_map
  let q := em.insert k expiration now
  let item' := { item with expiration_time := q.2 }
  ({ s with data := p.2 ++ [(k, item')], expiration_map := q.1 }, p.1)

/-- `Storage::remove`: swap-remove the entry and deregister its expiry. -/
def Storage.remove (s : Storage V) (k : Nat) : Storage V × Option (Item V) :=
  match dataSwapRemove s.data k with
  | (some item, rest) =>
    let em :=
      match item.expiration_time with
      | some expiration_time => (s.expiration_map.remove k expiration_time).1
      | none => s.expiration_map
    ({ s with data := rest, expiration_map := em }, some item)
  | (none, _) => (s, none)

/-- One iteration of the `Storage::cleanup` loop over the keys the tracker
reported as due: a key whose entry is missing, has no expiry, or whose expiry
is still in the future, is skipped (warned in the source); otherwise the entry
is removed and reported to the eviction callback. -/
def cleanupStep (now : Nat) (acc : Storage V × List (Nat × V)) (k : Nat) :
    Storage V × List (Nat × V) :=
  match lookupData acc.1.data k with
  | some item =>
    match item.expiration_time with
    | some expiration_time =>
      if now < expiration_time then acc
      else
        match acc.1.remove k with
        | (s', some removed) => (s', acc.2 ++ [(removed.k, removed.v)])
        | (s', none) => (s', acc.2)
    | none => acc
  | none => acc

/-- `Storage::cleanup`: drain the due buckets from the tracker, then remove
each reported key that is genuinely expired, collecting the eviction-callback
invocations `(key, value)` in order. -/
def Storage.cleanup (s : Storage V) (now : Nat) : Storage V × List (Nat × V) :=
  let q := s.expiration_map.cleanup now
  q.2.foldl (cleanupStep now) ({ s with expiration_map := q.1 }, [])

/-- `Storage::clear`. -/
def Storage.clear (s : Storage V) : Storage V :=
  { s with data := [], expiration_map := (s.expiration_map.clear : ExpirationMap) }

/-- The sample drawn at index `i`: the key at slot `i` of the insertion-ordered
map with its estimate (`none` models the `expect` panic on a bad index). -/
def sampleItemAt (s : Storage V) (est : Nat → Int) (i : Nat) : Option SampleItem :=
  (s.data.get? i).map (fun p => SampleItem.new p.1 (est p.1))

/-- One step of the selection loop of `Storage::sample`: keep the incumbent
unless the new draw has a strictly lower estimate. -/
def sampleStep (cur : Option SampleItem) (x : SampleItem) : Option SampleItem :=
  match cur with
  | some current => if x.estimate < current.estimate then some x else some current
  | none => some x

/-- `Storage::sample`: `none` for the empty store; otherwise inspect
`SAMPLES_NUM` random resident slots (the draws are the injected randomness)
and keep the draw with the lowest estimate.  The outer `Option` models the
index-out-of-range panic; the code's draws are always in range. -/
def Storage.sample (s : Storage V) (est : Nat → Int) (draws : List Nat) :
    Option (Option SampleItem) :=
  if s.isEmptyStore then some none
  else
    ((draws.take SAMPLES_NUM).mapM (sampleItemAt s est)).map
      (fun items => items.foldl sampleStep none)

/-! ### Cache: `src/cache.rs`

The key-hash capability (`SipHasherBuilder`) is injected and out of scope:
keys of the model are the hashed 64-bit identifiers themselves, so `key_hash`
is the identity.  The eviction callback is modelled by returning the list of
`(key, value)` pairs it would be invoked on. -/

/-- The cache state: resident store, admission estimator, optional metrics. -/
structure CacheState (V : Type) where
  store : Storage V
  admitter : TinyLFUCache
  metrics : Option Metrics

/-- `Cache::with_window_size`: the construction asserts `window_size ≠ 0`,
`window_size ≤ 10 000` and `capacity ≠ 0` (a violation panics, modelled as
`none`), and starts with an empty store, a fresh estimator and no metrics. -/
def Cache.withWindowSize (capacity window_size : Nat) : Option (CacheState V) :=
  if window_size = 0 then none
  else if window_size > 10000 then none
  else if capacity = 0 then none
  else
    (TinyLFUCache.new window_size).map
      (fun t => ⟨Storage.with_capacity capacity, t, none⟩)

/-- `Cache::new`: window size defaults to `MAX_WINDOW_SIZE`. -/
def Cache.new (capacity : Nat) : Option (CacheState V) :=
  Cache.withWindowSize capacity MAX_WINDOW_SIZE

/-- `Cache::with_metrics`. -/
def CacheState.with_metrics (s : CacheState V) : CacheState V :=
  { s with metrics := some Metrics.new }

/-- `Cache::remove_victim`: remove the selected victim from the store, record
the eviction metric and report the eviction-callback invocation. -/
def CacheState.remove_victim (s : CacheState V) (victim : Option SampleItem) :
    CacheState V × Option (Nat × V) :=
  match victim with
  | none => (s, none)
  | some victim =>
    match s.store.remove victim.key with
    | (st', some removed) =>
      let m' := s.metrics.map (fun m => m.insert .keyEvict removed.k 1)
      ({ s with store := st', metrics := m' }, some (removed.k, removed.v))
    | (st', none) => ({ s with store := st' }, none)

/-- `Cache::can_be_insert`: an already-resident key is an unconditional update
(recorded as such); otherwise free room admits unconditionally; otherwise a
victim is sampled and the incoming estimate decides admit (`Except.ok`) or
reject (`Except.error`).  The `Bool` records whether sampling was triggered;
the outer `Option` models the `unreachable!` panic when a full store yields no
sample. -/
def CacheState.can_be_insert (s : CacheState V) (k : Nat) (now : Nat)
    (draws : List Nat) :
    Option (CacheState V × Bool × Except (Option SampleItem) (Option SampleItem)) :=
  if s.store.contains k now then
    some ({ s with metrics := s.metrics.map (fun m => m.insert .keyUpdate k 1) },
      false, .ok none)
  else if s.store.room_left > 0 then some (s, false, .ok none)
  else
    match s.store.sample s.admitter.estimate draws with
    | none => none
    | some none => none
    | some (some victim) =>
      if s.admitter.estimate k < victim.estimate then some (s, true, .error (some victim))
      else some (s, true, .ok (some victim))

/-- The observable outcome of one `Cache::insert_with_ttl` call: the
eviction-callback invocations of the pre-insert cleanup, whether sampling was
triggered, the admission eviction (if any) and the returned
`Result<Option<V>, Option<()>>`. -/
structure InsertOutcome (V : Type) where
  cleaned : List (Nat × V)
  sampled : Bool
  victim : Option (Nat × V)
  returned : Except (Option Unit) (Option V)

/-- `Cache::insert_with_ttl`: clean up expired entries, decide admissibility,
then either admit — increment the estimator, evict the victim, record the
insert metric, write the entry — or reject, still evicting the sampled
victim. -/
def CacheState.insert_with_ttl (s : CacheState V) (k : Nat) (v : V)
    (expiration : Nat) (now : Nat) (draws : List Nat) :
    Option (CacheState V × InsertOutcome V) :=
  let c := s.store.cleanup now
  let s := { s with store := c.1 }
  let key_hash := k
  let item := Item.new k v
  match s.can_be_insert key_hash now draws with
  | none => none
  | some (s, sampled, .ok victim) =>
    let s := { s with admitter := s.admitter.increment key_hash }
    let p := s.remove_victim victim
    let s : CacheState V :=
      { p.1 with
        metrics := p.1.metrics.map (fun m => m.insert .keyInsert key_hash 1) }
    let q := s.store.insert_with_ttl key_hash item expiration now
    some ({ s with store := q.1 },
      ⟨c.2, sampled, p.2, .ok (q.2.map (fun old_item => old_item.v))⟩)
  | some (s, sampled, .error victim) =>
    let p := s.remove_victim victim
    some (p.1, ⟨c.2, sampled, p.2, .error (some ())⟩)

/-- `Cache::insert`: insert with a zero ttl. -/
def CacheState.insert (s : CacheState V) (k : Nat) (v : V) (now : Nat)
    (draws : List Nat) : Option (CacheState V × InsertOutcome V) :=
  s.insert_with_ttl k v 0 now draws

/-- `Cache::get`: always increment the estimator, then look up; record a hit
or a miss. -/
def CacheState.get (s : CacheState V) (k : Nat) (now : Nat) :
    CacheState V × Option V :=
  let s := { s with admitter := s.admitter.increment k }
  let result := (s.store.get k now).map (fun item => item.v)
  let s := { s with
    metrics := s.metrics.map
      (fun m => if result.isSome then m.insert .hit k 1 else m.insert .miss k 1) }
  (s, result)

/-- `Cache::contains`. -/
def CacheState.containsKey (s : CacheState V) (k : Nat) (now : Nat) : Bool :=
  s.store.contains k now

/-- `Cache::remove`: unconditional removal; neither the estimator nor the
metrics nor the eviction callback are touched. -/
def CacheState.removeKey (s : CacheState V) (k : Nat) : CacheState V × Option V :=
  let p := s.store.remove k
  ({ s with store := p.1 }, p.2.map (fun item => item.v))

/-- `Cache::clear`: wipe store, estimator, metrics. -/
def CacheState.clearAll (s : CacheState V) : CacheState V :=
  { store := s.store.clear, admitter := s.admitter.clear,
    metrics := s.metrics.map (fun m => m.clear) }

/-- The mutating cache calls, for stating reachability.  `get` covers
`get_mut` as well: both have the same effect on the cache state. -/
inductive CacheOp (V : Type) where
  | insert (k : Nat) (v : V) (expiration : Nat) (now : Nat) (draws : List Nat)
  | get (k : Nat) (now : Nat)
  | remove (k : Nat)
  | clear

/-- Apply one cache call (`none` models a panic). -/
def applyCacheOp (s : CacheState V) : CacheOp V → Option (CacheState V)
  | .insert k v expiration now draws =>
    (s.insert_with_ttl k v expiration now draws).map Prod.fst
  | .get k now => some (s.get k now).1
  | .remove k => some (s.removeKey k).1
  | .clear => some s.clearAll

/-- Run a sequence of cache calls. -/
def runCache (s : CacheState V) (ops : List (CacheOp V)) : Option (CacheState V) :=
  ops.foldlM applyCacheOp s

/-! ### Association-list infrastructure

`IndexMap` keeps keys pairwise distinct; `KeysNodup` is that invariant on the
model, and the lemmas below relate `lookupData`/`dataSwapRemove` to list
membership. -/

/-- The keys of the insertion-ordered map. -/
def keysOf (data : List (Nat × Item V)) : List Nat := data.map Prod.fst

/-- The `IndexMap` invariant: keys are pairwise distinct. -/
def KeysNodup (data : List (Nat × Item V)) : Prop := (keysOf data).Nodup

theorem lookupData_eq_none_iff {data : List (Nat × Item V)} {k : Nat} :
    lookupData data k = none ↔ k ∉ keysOf data := by
  unfold lookupData keysOf
  rw [Option.map_eq_none', List.find?_eq_none]
  constructor
  · intro h hk
    obtain ⟨p, hp, hpk⟩ := List.mem_map.mp hk
    exact absurd (by simpa using hpk) (by simpa using h p hp)
  · intro h p hp
    simp only [decide_eq_true_eq]
    intro hpk
    exact h (List.mem_map.mpr ⟨p, hp, hpk⟩)

theorem lookupData_mem {data : List (Nat × Item V)} {k : Nat} {item : Item V}
    (h : lookupData data k = some item) : (k, item) ∈ data := by
  unfold lookupData at h
  obtain ⟨p, hp, hps⟩ := Option.map_eq_some'.mp h
  have hmem := List.mem_of_find?_eq_some hp
  have hpk : p.1 = k := by simpa using List.find?_some hp
  have : p = (k, item) := by
    obtain ⟨p1, p2⟩ := p
    simp only at hpk hps
    rw [hpk, hps]
  rwa [this] at hmem

theorem mem_lookupData {data : List (Nat × Item V)} {k : Nat} {item : Item V}
    (hnd : KeysNodup data) (h : (k, item) ∈ data) : lookupData data k = some item := by
  induction data with
  | nil => cases h
  | cons p rest ih =>
    unfold KeysNodup keysOf at hnd
    simp only [List.map_cons, List.nodup_cons] at hnd
    rcases List.mem_cons.mp h with rfl | hmem
    · unfold lookupData
      rw [List.find?_cons_of_pos _ (by simp)]
      rfl
    · have hne : p.1 ≠ k := by
        intro hEq
        exact hnd.1 (hEq ▸ List.mem_map.mpr ⟨(k, item), hmem, rfl⟩)
      unfold lookupData
      rw [List.find?_cons_of_neg _ (by simpa using hne)]
      exact ih hnd.2 hmem

theorem lookupData_isSome_iff {data : List (Nat × Item V)} {k : Nat} :
    (lookupData data k).isSome = true ↔ k ∈ keysOf data := by
  rcases h : lookupData data k with _ | item
  · simp [lookupData_eq_none_iff.mp h]
  · simp only [Option.isSome_some, true_iff]
    exact List.mem_map.mpr ⟨(k, item), lookupData_mem h, rfl⟩

theorem dropLast_eq_eraseIdx_last {l : List α} :
    l.dropLast = l.eraseIdx (l.length - 1) := by
  induction l with
  | nil => rfl
  | cons x xs ih =>
    cases xs with
    | nil => rfl
    | cons y ys =>
      simp only [List.dropLast_cons₂, List.length_cons, Nat.add_sub_cancel] at ih ⊢
      rw [ih]
      rfl

theorem swapRemoveIdx_perm {l : List α} {i : Nat} (h : i < l.length) :
    (swapRemoveIdx l i).Perm (l.eraseIdx i) := by
  unfold swapRemoveIdx
  have hne : l ≠ [] := by
    intro hEq
    rw [hEq] at h
    exact absurd h (by simp)
  rcases hz : l.getLast? with _ | z
  · exact absurd (List.getLast?_eq_none_iff.mp hz) hne
  · simp only
    split
    · rename_i hlast
      have : i = l.length - 1 := by omega
      rw [this, ← dropLast_eq_eraseIdx_last]
    · rename_i hlast
      have hi1 : i < l.length - 1 := by omega
      -- decompose: l = take i ++ l[i] :: (drop (i+1))
      have hset : l.set i z = l.take i ++ z :: l.drop (i + 1) := by
        rw [List.set_eq_take_append_cons_drop]
        rw [if_pos h]
      have hdrop_ne : l.drop (i + 1) ≠ [] := by
        intro hEq
        have := congrArg List.length hEq
        simp only [List.length_drop, List.length_nil] at this
        omega
      have hz' : (l.drop (i + 1)).getLast? = some z := by
        rw [List.getLast?_drop]
        rw [if_neg (by omega)]
        exact hz
      -- dropLast distributes to the last nonempty component
      have hdl : (l.take i ++ z :: l.drop (i + 1)).dropLast =
          l.take i ++ z :: (l.drop (i + 1)).dropLast := by
        rw [List.dropLast_append_of_ne_nil _ (by simp)]
        rw [List.dropLast_cons_of_ne_nil hdrop_ne]
      rw [hset, hdl]
      have herase : l.eraseIdx i = l.take i ++ l.drop (i + 1) := by
        rw [List.eraseIdx_eq_take_drop_succ]
      rw [herase]
      refine List.Perm.append_left _ ?_
      -- z :: dropLast (drop (i+1)) ~ drop (i+1) = dropLast ++ [z]
      have hsplit : l.drop (i + 1) = (l.drop (i + 1)).dropLast ++ [z] := by
        conv_lhs => rw [← List.dropLast_append_getLast hdrop_ne]
        rw [List.getLast?_eq_getLast _ hdrop_ne] at hz'
        rw [Option.some_inj.mp hz']
      conv_rhs => rw [hsplit]
      exact (List.perm_append_singleton z _).symm

theorem get?_lt_length {l : List α} {i : Nat} {x : α} (h : l.get? i = some x) :
    i < l.length := by
  by_contra hge
  rw [List.get?_eq_none.mpr (by omega)] at h
  cases h

/-- `dataSwapRemove` removes exactly the entry `lookupData` finds: the first
component is the looked-up item, and on success the original list is a
permutation of the removed pair consed onto the remainder. -/
theorem dataSwapRemove_spec (data : List (Nat × Item V)) (k : Nat) :
    (dataSwapRemove data k).1 = lookupData data k ∧
    (∀ item, lookupData data k = some item →
      data.Perm ((k, item) :: (dataSwapRemove data k).2)) ∧
    (lookupData data k = none → (dataSwapRemove data k).2 = data) := by
  induction data with
  | nil =>
    refine ⟨rfl, ?_, fun _ => rfl⟩
    intro item h
    cases h
  | cons p rest ih =>
    by_cases hp : p.1 = k
    · have hfi : (p :: rest).findIdx? (fun q => decide (q.1 = k)) = some 0 := by
        rw [List.findIdx?_cons, if_pos (by simpa using hp)]
      have hlk : lookupData (p :: rest) k = some p.2 := by
        unfold lookupData
        rw [List.find?_cons_of_pos _ (by simpa using hp)]
        rfl
      have hds : dataSwapRemove (p :: rest) k = (some p.2, swapRemoveIdx (p :: rest) 0) := by
        unfold dataSwapRemove
        rw [hfi]
        rfl
      refine ⟨by rw [hds, hlk], ?_, ?_⟩
      · intro item h
        rw [hlk] at h
        obtain rfl : p.2 = item := by injection h
        rw [hds]
        have hpk : (k, p.2) = p := by
          obtain ⟨p1, p2⟩ := p
          simp only at hp ⊢
          rw [hp]
        rw [hpk]
        refine List.Perm.cons p ?_
        have h0 : (swapRemoveIdx (p :: rest) 0).Perm ((p :: rest).eraseIdx 0) :=
          swapRemoveIdx_perm (by simp)
        simpa using h0.symm
      · intro h
        rw [hlk] at h
        cases h
    · have hlk : lookupData (p :: rest) k = lookupData rest k := by
        unfold lookupData
        rw [List.find?_cons_of_neg _ (by simpa using hp)]
      have hfi : (p :: rest).findIdx? (fun q => decide (q.1 = k)) =
          (rest.findIdx? (fun q => decide (q.1 = k))).map (fun i => i + 1) := by
        rw [List.findIdx?_cons, if_neg (by simpa using hp), List.findIdx?_succ]
      rcases hrest : rest.findIdx? (fun q => decide (q.1 = k)) with _ | j
      · have hds : dataSwapRemove (p :: rest) k = (none, p :: rest) := by
          unfold dataSwapRemove
          rw [hfi, hrest]
          rfl
        have hds' : dataSwapRemove rest k = (none, rest) := by
          unfold dataSwapRemove
          rw [hrest]
        have hlkr : lookupData rest k = none := by
          have := ih.1
          rw [hds'] at this
          exact this.symm
        refine ⟨?_, ?_, fun _ => by rw [hds]⟩
        · rw [hds, hlk, hlkr]
        · intro item h
          rw [hlk, hlkr] at h
          cases h
      · have hds : dataSwapRemove (p :: rest) k =
            (((p :: rest).get? (j + 1)).map Prod.snd, swapRemoveIdx (p :: rest) (j + 1)) := by
          unfold dataSwapRemove
          rw [hfi, hrest]
          rfl
        have hds' : dataSwapRemove rest k =
            ((rest.get? j).map Prod.snd, swapRemoveIdx rest j) := by
          unfold dataSwapRemove
          rw [hrest]
        have hfst : ((p :: rest).get? (j + 1)).map Prod.snd = lookupData rest k := by
          have := ih.1
          rw [hds'] at this
          simpa using this
        refine ⟨by rw [hds, hlk]; exact hfst, ?_, ?_⟩
        · intro item h
          rw [hlk] at h
          have hperm_rest' := ih.2.1 item h
          rw [hds'] at hperm_rest'
          have hperm_rest : rest.Perm ((k, item) :: swapRemoveIdx rest j) := hperm_rest'
          rw [hds]
          show (p :: rest).Perm ((k, item) :: swapRemoveIdx (p :: rest) (j + 1))
          have hget : rest.get? j = some (k, item) := by
            have h1 := ih.1
            rw [hds'] at h1
            rw [h] at h1
            rcases hg : rest.get? j with _ | q
            · rw [hg] at h1
              cases h1
            · rw [hg] at h1
              have hq2 : q.2 = item := by injection h1
              have hmemq : q ∈ rest := List.get?_mem hg
              -- the entry at the found index has key k
              have hq1 : q.1 = k := by
                have hidx := hrest
                -- element at a findIdx? hit satisfies the predicate
                have := List.findIdx?_eq_some_iff_getElem.mp hidx
                obtain ⟨hlt, hpq, _⟩ := this
                have hgl : rest[j] = q := by
                  have := List.get?_eq_getElem? rest j
                  rw [hg] at this
                  have := this.symm
                  rwa [List.getElem?_eq_getElem hlt, Option.some_inj] at this
                rw [hgl] at hpq
                simpa using hpq
              obtain ⟨q1, q2⟩ := q
              simp only at hq1 hq2
              rw [hq1, hq2]
          have hjlt : j < rest.length := get?_lt_length hget
          have hsw : (swapRemoveIdx (p :: rest) (j + 1)).Perm ((p :: rest).eraseIdx (j + 1)) :=
            swapRemoveIdx_perm (by simpa using Nat.succ_lt_succ hjlt)
          have hswr : (swapRemoveIdx rest j).Perm (rest.eraseIdx j) :=
            swapRemoveIdx_perm hjlt
          have her : (p :: rest).eraseIdx (j + 1) = p :: rest.eraseIdx j := rfl
          refine List.Perm.trans (List.Perm.cons p hperm_rest) ?_
          refine List.Perm.trans (List.Perm.swap _ _ _) ?_
          refine List.Perm.cons _ ?_
          refine List.Perm.trans (List.Perm.cons p hswr) ?_
          rw [← her]
          exact hsw.symm

        · intro h
          rw [hlk] at h
          have h1 := ih.1
          rw [hds', h] at h1
          exfalso
          rcases hg : rest.get? j with _ | q
          · -- findIdx? found an index but the list has no entry there: impossible
            have := List.findIdx?_eq_some_iff_getElem.mp hrest
            obtain ⟨hlt, _, _⟩ := this
            rw [List.get?_eq_getElem?, List.getElem?_eq_getElem hlt] at hg
            cases hg
          · rw [hg] at h1
            simp at h1


theorem dataSwapRemove_fst (data : List (Nat × Item V)) (k : Nat) :
    (dataSwapRemove data k).1 = lookupData data k :=
  (dataSwapRemove_spec data k).1

theorem dataSwapRemove_perm {data : List (Nat × Item V)} {k : Nat} {item : Item V}
    (h : lookupData data k = some item) :
    data.Perm ((k, item) :: (dataSwapRemove data k).2) :=
  (dataSwapRemove_spec data k).2.1 item h

theorem dataSwapRemove_snd_of_none {data : List (Nat × Item V)} {k : Nat}
    (h : lookupData data k = none) : (dataSwapRemove data k).2 = data :=
  (dataSwapRemove_spec data k).2.2 h

theorem dataSwapRemove_length_found {data : List (Nat × Item V)} {k : Nat} {item : Item V}
    (h : lookupData data k = some item) :
    (dataSwapRemove data k).2.length + 1 = data.length := by
  have := (dataSwapRemove_perm h).length_eq
  simpa using this.symm

theorem keysNodup_of_perm {d1 d2 : List (Nat × Item V)} (hperm : d1.Perm d2)
    (hnd : KeysNodup d1) : KeysNodup d2 :=
  (List.Perm.nodup_iff (hperm.map Prod.fst)).mp hnd

theorem mem_keysOf_of_perm {d1 d2 : List (Nat × Item V)} (hperm : d1.Perm d2) {k : Nat}
    (h : k ∈ keysOf d1) : k ∈ keysOf d2 :=
  (hperm.map Prod.fst).mem_iff.mp h

theorem lookupData_of_perm {d1 d2 : List (Nat × Item V)} (hnd : KeysNodup d1)
    (hperm : d1.Perm d2) (k : Nat) : lookupData d1 k = lookupData d2 k := by
  rcases h : lookupData d1 k with _ | it
  · symm
    rw [lookupData_eq_none_iff] at h ⊢
    intro hk
    exact h (mem_keysOf_of_perm hperm.symm hk)
  · symm
    exact mem_lookupData (keysNodup_of_perm hperm hnd) (hperm.mem_iff.mp (lookupData_mem h))

theorem keysNodup_swapRemove {data : List (Nat × Item V)} (hnd : KeysNodup data) (k : Nat) :
    KeysNodup (dataSwapRemove data k).2 := by
  rcases h : lookupData data k with _ | it
  · rw [dataSwapRemove_snd_of_none h]
    exact hnd
  · have hperm := dataSwapRemove_perm h
    have := keysNodup_of_perm hperm hnd
    unfold KeysNodup keysOf at this ⊢
    simp only [List.map_cons, List.nodup_cons] at this
    exact this.2

theorem not_mem_keys_swapRemove {data : List (Nat × Item V)} {k : Nat} {item : Item V}
    (hnd : KeysNodup data) (h : lookupData data k = some item) :
    k ∉ keysOf (dataSwapRemove data k).2 := by
  have hperm := dataSwapRemove_perm h
  have := keysNodup_of_perm hperm hnd
  unfold KeysNodup keysOf at this
  simp only [List.map_cons, List.nodup_cons] at this
  exact this.1

theorem lookupData_swapRemove_other {data : List (Nat × Item V)} (hnd : KeysNodup data)
    {k k' : Nat} (hne : k' ≠ k) :
    lookupData (dataSwapRemove data k).2 k' = lookupData data k' := by
  rcases h : lookupData data k with _ | it
  · rw [dataSwapRemove_snd_of_none h]
  · have hperm := dataSwapRemove_perm h
    rw [lookupData_of_perm hnd hperm k']
    unfold lookupData
    rw [List.find?_cons_of_neg _ (by simpa using fun hEq => hne hEq.symm)]

theorem lookupData_append_self {data : List (Nat × Item V)} {k : Nat} {item : Item V}
    (h : k ∉ keysOf data) :
    lookupData (data ++ [(k, item)]) k = some item := by
  unfold lookupData
  rw [List.find?_append]
  have h1 : data.find? (fun p => decide (p.1 = k)) = none := by
    have := lookupData_eq_none_iff.mpr h
    unfold lookupData at this
    exact Option.map_eq_none'.mp this
  rw [h1]
  simp

theorem lookupData_append_other {data : List (Nat × Item V)} {k k' : Nat} {item : Item V}
    (hne : k' ≠ k) :
    lookupData (data ++ [(k, item)]) k' = lookupData data k' := by
  unfold lookupData
  rw [List.find?_append]
  rcases h : data.find? (fun p => decide (p.1 = k')) with _ | q
  · rw [h, List.find?_cons_of_neg _ (by simpa using fun hEq => hne hEq.symm)]
    rfl
  · rw [h]
    rfl

theorem keysNodup_append {data : List (Nat × Item V)} {k : Nat} {item : Item V}
    (hnd : KeysNodup data) (h : k ∉ keysOf data) :
    KeysNodup (data ++ [(k, item)]) := by
  unfold KeysNodup keysOf at hnd ⊢
  rw [List.map_append, List.nodup_append]
  refine ⟨hnd, by simp, ?_⟩
  intro a ha
  simp only [List.map_cons, List.map_nil, List.mem_singleton]
  intro hEq
  rw [hEq] at ha
  exact h ha

theorem dataSwapRemove_length_le (data : List (Nat × Item V)) (k : Nat) :
    (dataSwapRemove data k).2.length ≤ data.length := by
  rcases h : lookupData data k with _ | it
  · rw [dataSwapRemove_snd_of_none h]
  · have := dataSwapRemove_length_found h
    omega

/-! ### Storage lemmas -/

/-- The `IndexMap` key-uniqueness invariant lifted to the store. -/
def Storage.WF (s : Storage V) : Prop := KeysNodup s.data

theorem storage_remove_none {s : Storage V} {k : Nat}
    (h : lookupData s.data k = none) : s.remove k = (s, none) := by
  unfold Storage.remove
  split
  · rename_i item rest heq
    have : (dataSwapRemove s.data k).1 = some item := by rw [heq]
    rw [dataSwapRemove_fst, h] at this
    cases this
  · rfl

theorem storage_remove_found {s : Storage V} {k : Nat} {item : Item V}
    (h : lookupData s.data k = some item) :
    (s.remove k).2 = some item ∧
    (s.remove k).1.data = (dataSwapRemove s.data k).2 ∧
    (s.remove k).1.capacity = s.capacity := by
  unfold Storage.remove
  split
  · rename_i item' rest heq
    have h1 : (dataSwapRemove s.data k).1 = some item' := by rw [heq]
    rw [dataSwapRemove_fst, h] at h1
    cases h1
    have h2 : (dataSwapRemove s.data k).2 = rest := by rw [heq]
    exact ⟨rfl, by rw [h2], rfl⟩
  · rename_i rest heq
    have h1 : (dataSwapRemove s.data k).1 = none := by rw [heq]
    rw [dataSwapRemove_fst, h] at h1
    cases h1

theorem storage_remove_capacity (s : Storage V) (k : Nat) :
    (s.remove k).1.capacity = s.capacity := by
  rcases h : lookupData s.data k with _ | it
  · rw [storage_remove_none h]
  · exact (storage_remove_found h).2.2

theorem storage_remove_len_le (s : Storage V) (k : Nat) :
    (s.remove k).1.data.length ≤ s.data.length := by
  rcases h : lookupData s.data k with _ | it
  · rw [storage_remove_none h]
  · rw [(storage_remove_found h).2.1]
    exact dataSwapRemove_length_le s.data k

theorem storage_remove_len_found {s : Storage V} {k : Nat} {item : Item V}
    (h : lookupData s.data k = some item) :
    (s.remove k).1.data.length + 1 = s.data.length := by
  rw [(storage_remove_found h).2.1]
  exact dataSwapRemove_length_found h

theorem storage_remove_wf {s : Storage V} (hWF : s.WF) (k : Nat) : (s.remove k).1.WF := by
  rcases h : lookupData s.data k with _ | it
  · rw [storage_remove_none h]
    exact hWF
  · unfold Storage.WF
    rw [(storage_remove_found h).2.1]
    exact keysNodup_swapRemove hWF k

theorem storage_remove_lookup_self {s : Storage V} (hWF : s.WF) {k : Nat} :
    lookupData (s.remove k).1.data k = none := by
  rcases h : lookupData s.data k with _ | it
  · rw [storage_remove_none h]
    exact h
  · rw [(storage_remove_found h).2.1]
    exact lookupData_eq_none_iff.mpr (not_mem_keys_swapRemove hWF h)

theorem storage_remove_lookup_other {s : Storage V} (hWF : s.WF) {k k' : Nat}
    (hne : k' ≠ k) :
    lookupData (s.remove k).1.data k' = lookupData s.data k' := by
  rcases h : lookupData s.data k with _ | it
  · rw [storage_remove_none h]
  · rw [(storage_remove_found h).2.1]
    exact lookupData_swapRemove_other hWF hne

theorem em_insert_snd (m : ExpirationMap) (k expiration now : Nat) :
    (m.insert k expiration now).2 =
      if expiration = 0 then none else some (now + expiration) := by
  unfold ExpirationMap.insert
  split <;> rfl

theorem storage_insert_spec (s : Storage V) (k : Nat) (item : Item V)
    (expiration now : Nat) :
    (s.insert_with_ttl k item expiration now).1.data =
      (dataSwapRemove s.data k).2 ++
        [(k, { item with
          expiration_time := if expiration = 0 then none else some (now + expiration) })] ∧
    (s.insert_with_ttl k item expiration now).2 = lookupData s.data k ∧
    (s.insert_with_ttl k item expiration now).1.capacity = s.capacity := by
  refine ⟨?_, dataSwapRemove_fst s.data k, rfl⟩
  show ((dataSwapRemove s.data k).2 ++ _) = _
  rw [em_insert_snd]

theorem storage_insert_len_le (s : Storage V) (k : Nat) (item : Item V)
    (expiration now : Nat) :
    (s.insert_with_ttl k item expiration now).1.data.length ≤ s.data.length + 1 := by
  rw [(storage_insert_spec s k item expiration now).1]
  rw [List.length_append]
  have := dataSwapRemove_length_le s.data k
  simp only [List.length_cons, List.length_nil]
  omega

theorem storage_insert_len_found {s : Storage V} {k : Nat} {old : Item V}
    (h : lookupData s.data k = some old) (item : Item V) (expiration now : Nat) :
    (s.insert_with_ttl k item expiration now).1.data.length = s.data.length := by
  rw [(storage_insert_spec s k item expiration now).1]
  rw [List.length_append]
  have := dataSwapRemove_length_found h
  simp only [List.length_cons, List.length_nil]
  omega

theorem storage_insert_wf {s : Storage V} (hWF : s.WF) (k : Nat) (item : Item V)
    (expiration now : Nat) : (s.insert_with_ttl k item expiration now).1.WF := by
  unfold Storage.WF
  rw [(storage_insert_spec s k item expiration now).1]
  refine keysNodup_append (keysNodup_swapRemove hWF k) ?_
  rcases h : lookupData s.data k with _ | it
  · rw [dataSwapRemove_snd_of_none h]
    exact lookupData_eq_none_iff.mp h
  · exact not_mem_keys_swapRemove hWF h

theorem storage_insert_lookup_self {s : Storage V} (hWF : s.WF) (k : Nat) (item : Item V)
    (expiration now : Nat) :
    lookupData (s.insert_with_ttl k item expiration now).1.data k =
      some { item with
        expiration_time := if expiration = 0 then none else some (now + expiration) } := by
  rw [(storage_insert_spec s k item expiration now).1]
  refine lookupData_append_self ?_
  rcases h : lookupData s.data k with _ | it
  · rw [dataSwapRemove_snd_of_none h]
    exact lookupData_eq_none_iff.mp h
  · exact not_mem_keys_swapRemove hWF h

theorem storage_insert_lookup_other {s : Storage V} (hWF : s.WF) {k k' : Nat}
    (hne : k' ≠ k) (item : Item V) (expiration now : Nat) :
    lookupData (s.insert_with_ttl k item expiration now).1.data k' =
      lookupData s.data k' := by
  rw [(storage_insert_spec s k item expiration now).1]
  rw [lookupData_append_other hne]
  exact lookupData_swapRemove_other hWF hne

/-! ### Cleanup lemmas -/

theorem cleanupStep_capacity (now : Nat) (acc : Storage V × List (Nat × V)) (k' : Nat) :
    (cleanupStep now acc k').1.capacity = acc.1.capacity := by
  unfold cleanupStep
  split
  · split
    · split
      · rfl
      · split
        · rename_i s' removed heq
          have : (acc.1.remove k').1 = s' := by rw [heq]
          rw [← this]
          exact storage_remove_capacity _ _
        · rename_i s' heq
          have : (acc.1.remove k').1 = s' := by rw [heq]
          rw [← this]
          exact storage_remove_capacity _ _
    · rfl
  · rfl

theorem cleanupStep_len_le (now : Nat) (acc : Storage V × List (Nat × V)) (k' : Nat) :
    (cleanupStep now acc k').1.data.length ≤ acc.1.data.length := by
  unfold cleanupStep
  split
  · split
    · split
      · exact Nat.le_refl _
      · split
        · rename_i s' removed heq
          have : (acc.1.remove k').1 = s' := by rw [heq]
          rw [← this]
          exact storage_remove_len_le _ _
        · rename_i s' heq
          have : (acc.1.remove k').1 = s' := by rw [heq]
          rw [← this]
          exact storage_remove_len_le _ _
    · exact Nat.le_refl _
  · exact Nat.le_refl _

theorem cleanupStep_wf (now : Nat) {acc : Storage V × List (Nat × V)} (hWF : acc.1.WF)
    (k' : Nat) : (cleanupStep now acc k').1.WF := by
  unfold cleanupStep
  split
  · split
    · split
      · exact hWF
      · split
        · rename_i s' removed heq
          have : (acc.1.remove k').1 = s' := by rw [heq]
          rw [← this]
          exact storage_remove_wf hWF _
        · rename_i s' heq
          have : (acc.1.remove k').1 = s' := by rw [heq]
          rw [← this]
          exact storage_remove_wf hWF _
    · exact hWF
  · exact hWF

theorem cleanupStep_lookup_other (now : Nat) {acc : Storage V × List (Nat × V)}
    (hWF : acc.1.WF) {k k' : Nat} (hne : k ≠ k') :
    lookupData (cleanupStep now acc k').1.data k = lookupData acc.1.data k := by
  unfold cleanupStep
  split
  · split
    · split
      · rfl
      · split
        · rename_i s' removed heq
          have : (acc.1.remove k').1 = s' := by rw [heq]
          rw [← this]
          exact storage_remove_lookup_other hWF hne
        · rename_i s' heq
          have : (acc.1.remove k').1 = s' := by rw [heq]
          rw [← this]
          exact storage_remove_lookup_other hWF hne
    · rfl
  · rfl

theorem cleanupStep_none (now : Nat) {acc : Storage V × List (Nat × V)} (hWF : acc.1.WF)
    {k : Nat} (h : lookupData acc.1.data k = none) (k' : Nat) :
    lookupData (cleanupStep now acc k').1.data k = none := by
  by_cases hne : k = k'
  · subst hne
    unfold cleanupStep
    split
    · rename_i item heq
      rw [h] at heq
      cases heq
    · exact h
  · rw [cleanupStep_lookup_other now hWF hne]
    exact h

theorem cleanupStep_alive (now : Nat) {acc : Storage V × List (Nat × V)} (hWF : acc.1.WF)
    {k : Nat} {item : Item V} (h : lookupData acc.1.data k = some item)
    (halive : item.expiration_time = none ∨
      ∃ e, item.expiration_time = some e ∧ now < e) (k' : Nat) :
    lookupData (cleanupStep now acc k').1.data k = some item := by
  by_cases hne : k = k'
  · subst hne
    unfold cleanupStep
    split
    · rename_i item' heq
      rw [h] at heq
      cases heq
      split
      · rename_i e he
        rcases halive with hnone | ⟨e', he', hlt⟩
        · rw [hnone] at he
          cases he
        · rw [he'] at he
          cases he
          rw [if_pos hlt]
          exact h
      · exact h
    · rename_i heq
      rw [h] at heq
      cases heq
  · rw [cleanupStep_lookup_other now hWF hne]
    exact h

theorem cleanupStep_expired (now : Nat) {acc : Storage V × List (Nat × V)} (hWF : acc.1.WF)
    {k : Nat} {item : Item V} {e : Nat} (h : lookupData acc.1.data k = some item)
    (he : item.expiration_time = some e) (hle : ¬ now < e) :
    lookupData (cleanupStep now acc k).1.data k = none := by
  unfold cleanupStep
  split
  · rename_i item' heq
    rw [h] at heq
    cases heq
    split
    · rename_i e' he'
      rw [he] at he'
      cases he'
      rw [if_neg hle]
      split
      · rename_i s' removed heq2
        have : (acc.1.remove k).1 = s' := by rw [heq2]
        rw [← this]
        exact storage_remove_lookup_self hWF
      · rename_i s' heq2
        have : (acc.1.remove k).1 = s' := by rw [heq2]
        rw [← this]
        exact storage_remove_lookup_self hWF
    · rename_i he'
      rw [he] at he'
      cases he'
  · rename_i heq
    rw [h] at heq
    cases heq

theorem cleanupFold_capacity (now : Nat) (keys : List Nat)
    (acc : Storage V × List (Nat × V)) :
    (keys.foldl (cleanupStep now) acc).1.capacity = acc.1.capacity := by
  induction keys generalizing acc with
  | nil => rfl
  | cons k' rest ih =>
    rw [List.foldl_cons, ih, cleanupStep_capacity]

theorem cleanupFold_len_le (now : Nat) (keys : List Nat)
    (acc : Storage V × List (Nat × V)) :
    (keys.foldl (cleanupStep now) acc).1.data.length ≤ acc.1.data.length := by
  induction keys generalizing acc with
  | nil => exact Nat.le_refl _
  | cons k' rest ih =>
    rw [List.foldl_cons]
    exact Nat.le_trans (ih _) (cleanupStep_len_le now acc k')

theorem cleanupFold_wf (now : Nat) (keys : List Nat)
    {acc : Storage V × List (Nat × V)} (hWF : acc.1.WF) :
    (keys.foldl (cleanupStep now) acc).1.WF := by
  induction keys generalizing acc with
  | nil => exact hWF
  | cons k' rest ih =>
    rw [List.foldl_cons]
    exact ih (cleanupStep_wf now hWF k')

theorem cleanupFold_none (now : Nat) (keys : List Nat)
    {acc : Storage V × List (Nat × V)} (hWF : acc.1.WF) {k : Nat}
    (h : lookupData acc.1.data k = none) :
    lookupData (keys.foldl (cleanupStep now) acc).1.data k = none := by
  induction keys generalizing acc with
  | nil => exact h
  | cons k' rest ih =>
    rw [List.foldl_cons]
    exact ih (cleanupStep_wf now hWF k') (cleanupStep_none now hWF h k')

theorem cleanupFold_alive (now : Nat) (keys : List Nat)
    {acc : Storage V × List (Nat × V)} (hWF : acc.1.WF) {k : Nat} {item : Item V}
    (h : lookupData acc.1.data k = some item)
    (halive : item.expiration_time = none ∨
      ∃ e, item.expiration_time = some e ∧ now < e) :
    lookupData (keys.foldl (cleanupStep now) acc).1.data k = some item := by
  induction keys generalizing acc with
  | nil => exact h
  | cons k' rest ih =>
    rw [List.foldl_cons]
    exact ih (cleanupStep_wf now hWF k') (cleanupStep_alive now hWF h halive k')

theorem cleanupFold_expired (now : Nat) (keys : List Nat)
    {acc : Storage V × List (Nat × V)} (hWF : acc.1.WF) {k : Nat} {item : Item V} {e : Nat}
    (h : lookupData acc.1.data k = some item) (he : item.expiration_time = some e)
    (hle : ¬ now < e) (hk : k ∈ keys) :
    lookupData (keys.foldl (cleanupStep now) acc).1.data k = none := by
  induction keys generalizing acc with
  | nil => cases hk
  | cons k' rest ih =>
    rw [List.foldl_cons]
    by_cases hkk : k = k'
    · subst hkk
      exact cleanupFold_none now rest (cleanupStep_wf now hWF k)
        (cleanupStep_expired now hWF h he hle)
    · have hk' : k ∈ rest := by
        rcases List.mem_cons.mp hk with hEq | hmem
        · exact absurd hEq hkk
        · exact hmem
      refine ih (cleanupStep_wf now hWF k') ?_ hk'
      rw [cleanupStep_lookup_other now hWF hkk]
      exact h

theorem storage_cleanup_capacity (s : Storage V) (now : Nat) :
    (s.cleanup now).1.capacity = s.capacity := by
  unfold Storage.cleanup
  rw [cleanupFold_capacity]

theorem storage_cleanup_len_le (s : Storage V) (now : Nat) :
    (s.cleanup now).1.data.length ≤ s.data.length := by
  unfold Storage.cleanup
  exact cleanupFold_len_le now _ _

theorem storage_cleanup_wf {s : Storage V} (hWF : s.WF) (now : Nat) :
    (s.cleanup now).1.WF := by
  unfold Storage.cleanup
  exact cleanupFold_wf now _ hWF

theorem storage_cleanup_none {s : Storage V} (hWF : s.WF) {k : Nat}
    (h : lookupData s.data k = none) (now : Nat) :
    lookupData (s.cleanup now).1.data k = none := by
  unfold Storage.cleanup
  exact cleanupFold_none now _ hWF h

theorem storage_cleanup_alive {s : Storage V} (hWF : s.WF) {k : Nat} {item : Item V}
    (h : lookupData s.data k = some item)
    (halive : item.expiration_time = none ∨
      ∃ e, item.expiration_time = some e ∧ now < e) :
    lookupData (s.cleanup now).1.data k = some item := by
  unfold Storage.cleanup
  exact cleanupFold_alive now _ hWF h halive

theorem storage_cleanup_expired {s : Storage V} (hWF : s.WF) {k : Nat} {item : Item V}
    {e : Nat} (h : lookupData s.data k = some item) (he : item.expiration_time = some e)
    {now : Nat} (hle : ¬ now < e) (hk : k ∈ (s.expiration_map.cleanup now).2) :
    lookupData (s.cleanup now).1.data k = none := by
  unfold Storage.cleanup
  exact cleanupFold_expired now _ hWF h he hle hk

/-! ### Expiration-tracker registration lemmas -/

theorem bucketAdd_mem (l : List (Nat × List Nat)) (b k : Nat) :
    ∃ ks, (b, ks) ∈ bucketAdd l b k ∧ k ∈ ks := by
  induction l with
  | nil =>
    refine ⟨[k], ?_, by simp⟩
    simp [bucketAdd]
  | cons p rest ih =>
    obtain ⟨p1, p2⟩ := p
    by_cases hb : p1 = b
    · subst hb
      refine ⟨if k ∈ p2 then p2 else k :: p2, ?_, ?_⟩
      · simp [bucketAdd]
      · split
        · assumption
        · simp
    · obtain ⟨ks, hmem, hk⟩ := ih
      refine ⟨ks, ?_, hk⟩
      simp only [bucketAdd, if_neg hb]
      exact List.mem_cons_of_mem _ hmem

theorem em_insert_registered (m : ExpirationMap) (k : Nat) {expiration : Nat}
    (he : expiration ≠ 0) (now : Nat) :
    ∃ ks, (now + expiration, ks) ∈ (m.insert k expiration now).1.buckets ∧ k ∈ ks := by
  unfold ExpirationMap.insert
  rw [if_neg he]
  exact bucketAdd_mem m.buckets (now + expiration) k

theorem em_cleanup_mem {m : ExpirationMap} {now b k : Nat} {ks : List Nat}
    (hb : (b, ks) ∈ m.buckets) (hk : k ∈ ks) (hdue : b ≤ now) :
    k ∈ (m.cleanup now).2 := by
  unfold ExpirationMap.cleanup
  simp only [storage_bucket]
  rw [List.mem_flatten]
  refine ⟨ks, ?_, hk⟩
  rw [List.mem_map]
  refine ⟨(b, ks), ?_, rfl⟩
  rw [List.mem_filter]
  exact ⟨hb, by simpa using Nat.lt_succ_of_le hdue⟩

/-! ### Sample lemmas -/

/-- The selection fold of `Storage::sample` returns the first draw attaining
the minimum estimate: it is a drawn item, its estimate is minimal, and every
draw strictly before its (first) position has a strictly larger estimate. -/
theorem foldl_sampleStep_spec (items : List SampleItem) (c : SampleItem) :
    ∃ r i, items.foldl sampleStep (some c) = some r ∧
      (c :: items).get? i = some r ∧
      (∀ x ∈ c :: items, r.estimate ≤ x.estimate) ∧
      (∀ j < i, ∀ y, (c :: items).get? j = some y → r.estimate < y.estimate) := by
  induction items generalizing c with
  | nil =>
    refine ⟨c, 0, rfl, rfl, ?_, ?_⟩
    · intro x hx
      rcases List.mem_cons.mp hx with rfl | hx
      · exact le_refl _
      · cases hx
    · intro j hj y hy
      omega
  | cons x xs ih =>
    rw [List.foldl_cons]
    by_cases hx : x.estimate < c.estimate
    · have hstep : sampleStep (some c) x = some x := by
        show (if x.estimate < c.estimate then some x else some c) = some x
        rw [if_pos hx]
      rw [hstep]
      obtain ⟨r, i, hfold, hget, hmin, hpre⟩ := ih x
      refine ⟨r, i + 1, hfold, hget, ?_, ?_⟩
      · intro y hy
        rcases List.mem_cons.mp hy with rfl | hy
        · have := hmin x (by simp)
          omega
        · exact hmin y hy
      · intro j hj y hy
        cases j with
        | zero =>
          have hyc : y = c := by
            simp only [List.get?] at hy
            injection hy with h1
            exact h1.symm
          subst hyc
          have := hmin x (by simp)
          omega
        | succ j' =>
          exact hpre j' (by omega) y hy
    · have hstep : sampleStep (some c) x = some c := by
        show (if x.estimate < c.estimate then some x else some c) = some c
        rw [if_neg hx]
      rw [hstep]
      obtain ⟨r, i, hfold, hget, hmin, hpre⟩ := ih c
      cases i with
      | zero =>
        have hrc : r = c := by
          simp only [List.get?] at hget
          injection hget with h1
          exact h1.symm
        subst hrc
        refine ⟨r, 0, hfold, rfl, ?_, ?_⟩
        · intro y hy
          rcases List.mem_cons.mp hy with rfl | hy
          · exact le_refl _
          · rcases List.mem_cons.mp hy with rfl | hy
            · omega
            · exact hmin y (by simp [hy])
        · intro j hj y hy
          omega
      | succ i' =>
        refine ⟨r, i' + 2, hfold, hget, ?_, ?_⟩
        · intro y hy
          rcases List.mem_cons.mp hy with rfl | hy
          · exact hmin y (by simp)
          · rcases List.mem_cons.mp hy with rfl | hy
            · have := hmin c (by simp)
              omega
            · exact hmin y (by simp [hy])
        · intro j hj y hy
          cases j with
          | zero =>
            have hyc : y = c := by
              simp only [List.get?] at hy
              injection hy with h1
              exact h1.symm
            subst hyc
            exact hpre 0 (by omega) y rfl
          | succ j' =>
            cases j' with
            | zero =>
              have hyx : y = x := by
                simp only [List.get?] at hy
                injection hy with h1
                exact h1.symm
              subst hyx
              have hrc := hpre 0 (by omega) c rfl
              omega
            | succ j'' =>
              exact hpre (j'' + 1) (by omega) y hy

theorem option_mapM_mem {f : Nat → Option SampleItem} {dl : List Nat}
    {items : List SampleItem} (h : dl.mapM f = some items) :
    ∀ x ∈ items, ∃ i ∈ dl, f i = some x := by
  induction dl generalizing items with
  | nil =>
    simp only [List.mapM_nil, pure, Option.some_inj] at h
    subst h
    intro x hx
    cases hx
  | cons d rest ih =>
    rw [List.mapM_cons] at h
    simp only [bind, Option.bind_eq_some, pure, Option.some_inj] at h
    obtain ⟨y, hy, ys, hys, rfl⟩ := h
    intro x hx
    rcases List.mem_cons.mp hx with rfl | hx
    · exact ⟨d, by simp, hy⟩
    · obtain ⟨i, hi, hfi⟩ := ih hys x hx
      exact ⟨i, by simp [hi], hfi⟩

theorem option_mapM_length {f : Nat → Option SampleItem} {dl : List Nat}
    {items : List SampleItem} (h : dl.mapM f = some items) :
    items.length = dl.length := by
  induction dl generalizing items with
  | nil =>
    simp only [List.mapM_nil, pure, Option.some_inj] at h
    subst h
    rfl
  | cons d rest ih =>
    rw [List.mapM_cons] at h
    simp only [bind, Option.bind_eq_some, pure, Option.some_inj] at h
    obtain ⟨y, hy, ys, hys, rfl⟩ := h
    simp [ih hys]

theorem sampleItemAt_key_mem {s : Storage V} {est : Nat → Int} {i : Nat} {x : SampleItem}
    (h : sampleItemAt s est i = some x) :
    x.key ∈ keysOf s.data ∧ x.estimate = est x.key := by
  unfold sampleItemAt at h
  obtain ⟨p, hp, hps⟩ := Option.map_eq_some'.mp h
  have hmem : p ∈ s.data := List.get?_mem hp
  subst hps
  exact ⟨List.mem_map.mpr ⟨p, hmem, rfl⟩, rfl⟩

/-- The empty store yields no sample; a non-empty store with in-range draws
yields the first drawn item attaining the minimum estimate. -/
theorem storage_sample_spec (s : Storage V) (est : Nat → Int) (draws : List Nat) :
    (s.data.length = 0 → s.sample est draws = some none) ∧
    (∀ items, ((draws.take SAMPLES_NUM).mapM (sampleItemAt s est)) = some items →
      s.data.length ≠ 0 → items ≠ [] →
      ∃ r i, s.sample est draws = some (some r) ∧
        items.get? i = some r ∧
        (∀ x ∈ items, r.estimate ≤ x.estimate) ∧
        (∀ j < i, ∀ y, items.get? j = some y → r.estimate < y.estimate) ∧
        r.key ∈ keysOf s.data ∧ r.estimate = est r.key) := by
  constructor
  · intro h
    unfold Storage.sample
    rw [if_pos (by simpa [Storage.isEmptyStore, Storage.len] using h)]
  · intro items hmap hne hnil
    unfold Storage.sample
    rw [if_neg (by simpa [Storage.isEmptyStore, Storage.len] using hne), hmap]
    rcases items with _ | ⟨x, xs⟩
    · exact absurd rfl hnil
    · have hfold : (x :: xs).foldl sampleStep none = xs.foldl sampleStep (some x) := by
        rw [List.foldl_cons]
        rfl
      obtain ⟨r, i, hf, hget, hmin, hpre⟩ := foldl_sampleStep_spec xs x
      have hrmem : r ∈ x :: xs := List.get?_mem hget
      obtain ⟨idx, _, hidx⟩ := option_mapM_mem hmap r hrmem
      obtain ⟨hkey, hest⟩ := sampleItemAt_key_mem hidx
      refine ⟨r, i, ?_, hget, hmin, hpre, hkey, hest⟩
      simp only [Option.map_eq_some']
      exact ⟨x :: xs, rfl, by rw [hfold, hf]⟩

/-- A successful sample is a resident key. -/
theorem storage_sample_key_mem {s : Storage V} {est : Nat → Int} {draws : List Nat}
    {r : SampleItem} (h : s.sample est draws = some (some r)) :
    r.key ∈ keysOf s.data := by
  unfold Storage.sample at h
  split at h
  · simp at h
  · rcases hmap : (draws.take SAMPLES_NUM).mapM (sampleItemAt s est) with _ | items
    · rw [hmap] at h
      cases h
    · rw [hmap] at h
      simp only [Option.map_eq_some', Option.some_inj] at h
      obtain ⟨items', hitems', hfold⟩ := h
      subst hitems'
      rcases items with _ | ⟨x, xs⟩
      · cases hfold
      · have hcons : (x :: xs).foldl sampleStep none = xs.foldl sampleStep (some x) := by
          rw [List.foldl_cons]
          rfl
        rw [hcons] at hfold
        obtain ⟨r', i, hf, hget, _, _⟩ := foldl_sampleStep_spec xs x
        rw [hf] at hfold
        have hfr : r' = r := Option.some_inj.mp hfold
        have hrmem : r ∈ x :: xs := by
          rw [← hfr]
          exact List.get?_mem hget
        obtain ⟨idx, hidxmem, hidx⟩ := option_mapM_mem hmap r hrmem
        exact (sampleItemAt_key_mem hidx).1

/-! ### `Storage.get` helpers -/

theorem storage_get_of_lookup_none {s : Storage V} {k : Nat}
    (h : lookupData s.data k = none) (now : Nat) : s.get k now = none := by
  unfold Storage.get
  split
  · rename_i item heq
    rw [h] at heq
    cases heq
  · rfl

theorem storage_get_of_no_expiry {s : Storage V} {k : Nat} {item : Item V}
    (h : lookupData s.data k = some item) (he : item.expiration_time = none) (now : Nat) :
    s.get k now = some item := by
  unfold Storage.get
  split
  · rename_i item' heq
    rw [h] at heq
    cases heq
    split
    · rename_i e he'
      rw [he] at he'
      cases he'
    · rfl
  · rename_i heq
    rw [h] at heq
    cases heq

theorem storage_get_of_expiry {s : Storage V} {k : Nat} {item : Item V} {e : Nat}
    (h : lookupData s.data k = some item) (he : item.expiration_time = some e) (now : Nat) :
    s.get k now = if now > e then none else some item := by
  unfold Storage.get
  split
  · rename_i item' heq
    rw [h] at heq
    cases heq
    split
    · rename_i e' he'
      rw [he] at he'
      cases he'
      rfl
    · rename_i he'
      rw [he] at he'
      cases he'
  · rename_i heq
    rw [h] at heq
    cases heq

theorem storage_contains_of_lookup_some {s : Storage V} {k : Nat} {item : Item V}
    (h : lookupData s.data k = some item) {now : Nat}
    (halive : item.expiration_time = none ∨
      ∃ e, item.expiration_time = some e ∧ ¬ now > e) :
    s.contains k now = true := by
  unfold Storage.contains
  rcases halive with hnone | ⟨e, he, hle⟩
  · rw [storage_get_of_no_expiry h hnone]
    rfl
  · rw [storage_get_of_expiry h he, if_neg hle]
    rfl

theorem storage_contains_true_lookup {s : Storage V} {k now : Nat}
    (h : s.contains k now = true) : ∃ item, lookupData s.data k = some item := by
  rcases hl : lookupData s.data k with _ | item
  · rw [Storage.contains, storage_get_of_lookup_none hl] at h
    cases h
  · exact ⟨item, rfl⟩

/-! ### Claim theorems -/

/-- C10: a stored entry whose expiry instant is already past but which has not
been physically cleaned up is reported absent by `contains` and `get`, yet
`remove` still physically deletes it and returns its stored value: removal
does not apply the lazy-expiration check that lookups apply. -/
theorem remove_ignores_lazy_expiry (V : Type) (s : CacheState V) (k now e : Nat)
    (item : Item V) (hWF : s.store.WF)
    (hlk : lookupData s.store.data k = some item)
    (he : item.expiration_time = some e) (hpast : now > e) :
    s.containsKey k now = false ∧
    (s.get k now).2 = none ∧
    (s.removeKey k).2 = some item.v ∧
    lookupData (s.removeKey k).1.store.data k = none := by
  have hget : s.store.get k now = none := by
    rw [storage_get_of_expiry hlk he, if_pos hpast]
  refine ⟨?_, ?_, ?_, ?_⟩
  · unfold CacheState.containsKey Storage.contains
    rw [hget]
    rfl
  · show (s.store.get k now).map (fun it => it.v) = none
    rw [hget]
    rfl
  · show (s.store.remove k).2.map (fun it => it.v) = some item.v
    rw [(storage_remove_found hlk).1]
    rfl
  · show lookupData (s.store.remove k).1.data k = none
    exact storage_remove_lookup_self hWF

/-- Witness for `remove_ignores_lazy_expiry`: a one-entry store whose entry
expired at time 5, observed at time 6. -/
theorem remove_ignores_lazy_expiry_witness :
    (let s : CacheState Nat :=
      ⟨⟨[(1, ⟨some 5, 1, 42⟩)], ⟨[(5, [1])]⟩, 10⟩, tinyFresh1, none⟩
     s.containsKey 1 6 = false ∧
     (s.get 1 6).2 = none ∧
     (s.removeKey 1).2 = some 42 ∧
     lookupData (s.removeKey 1).1.store.data 1 = none) :=
  remove_ignores_lazy_expiry Nat
    ⟨⟨[(1, ⟨some 5, 1, 42⟩)], ⟨[(5, [1])]⟩, 10⟩, tinyFresh1, none⟩
    1 6 5 ⟨some 5, 1, 42⟩ (by unfold Storage.WF KeysNodup; decide) rfl rfl (by decide)

/-- C9: construction fails fast (no instance is produced) exactly when the
capacity is zero, the window size is zero, or the window size exceeds 10000;
for positive capacity and window size in `(0, 10000]` it succeeds; and the
window defaults to 10000 when unspecified. -/
theorem construction_fails_fast (V : Type) (capacity window_size : Nat) :
    ((Cache.withWindowSize capacity window_size : Option (CacheState V)).isSome ↔
      (0 < capacity ∧ 0 < window_size ∧ window_size ≤ 10000)) ∧
    (Cache.new capacity : Option (CacheState V)) = Cache.withWindowSize capacity 10000 ∧
    (∀ s : CacheState V, Cache.new capacity = some s → s.admitter.window_size = 10000) := by
  refine ⟨?_, rfl, ?_⟩
  · unfold Cache.withWindowSize TinyLFUCache.new
    split
    · rename_i h1
      simp only [Option.isSome_none, Bool.false_eq_true, false_iff]
      omega
    · split
      · rename_i h1 h2
        simp only [Option.isSome_none, Bool.false_eq_true, false_iff]
        omega
      · split
        · rename_i h1 h2 h3
          simp only [Option.isSome_none, Bool.false_eq_true, false_iff]
          omega
        · rename_i h1 h2 h3
          simp only [Option.map_some', Option.isSome_some, true_iff]
          omega
  · intro s hs
    unfold Cache.new Cache.withWindowSize TinyLFUCache.new MAX_WINDOW_SIZE at hs
    rw [if_neg (by omega), if_neg (by omega)] at hs
    split at hs
    · cases hs
    · rw [if_neg (by omega)] at hs
      simp only [Option.map_some', Option.some_inj] at hs
      rw [← hs]
      simp

/-- Witness for `construction_fails_fast` at capacity 7, window size 3 and the
default-window constructor. -/
theorem construction_fails_fast_witness :
    ((Cache.withWindowSize 7 3 : Option (CacheState Nat)).isSome ↔
      (0 < 7 ∧ 0 < 3 ∧ 3 ≤ 10000)) ∧
    (Cache.new 7 : Option (CacheState Nat)) =
      some ⟨Storage.with_capacity 7, ⟨fun _ => 0, ∅, 0, 10000, ∅, ∅⟩, none⟩ ∧
    (⟨Storage.with_capacity 7, ⟨fun _ => 0, ∅, 0, 10000, ∅, ∅⟩, none⟩ :
      CacheState Nat).admitter.window_size = 10000 :=
  ⟨(construction_fails_fast Nat 7 3).1, rfl,
    (construction_fails_fast Nat 7 10000).2.2
      ⟨Storage.with_capacity 7, ⟨fun _ => 0, ∅, 0, 10000, ∅, ∅⟩, none⟩ rfl⟩

/-- The claim's tie-break rule, following the spec's words: among the draws
keep the one with the lowest estimate, ties broken by the lower hashed-key
value.  Stated for comparison with the source's `Storage.sample`, whose
selection loop replaces the incumbent only on a strictly lower estimate. -/
def sampleSpecStep (cur : Option SampleItem) (x : SampleItem) : Option SampleItem :=
  match cur with
  | some current =>
    if x.estimate < current.estimate ∨
        (x.estimate = current.estimate ∧ x.key < current.key) then some x
    else some current
  | none => some x

/-- The claim's sampling function (spec's words): lowest estimate among the
draws, ties broken by lower hashed-key value. -/
def Storage.sampleSpec (s : Storage V) (est : Nat → Int) (draws : List Nat) :
    Option (Option SampleItem) :=
  if s.isEmptyStore then some none
  else
    ((draws.take SAMPLES_NUM).mapM (sampleItemAt s est)).map
      (fun items => items.foldl sampleSpecStep none)

/-- A two-entry store (keys 5 and 3, both with estimate 0) used to separate
the source's tie-break from the claim's. -/
def sampleCexStore : Storage Nat :=
  ⟨[(5, Item.new 5 50), (3, Item.new 3 30)], ExpirationMap.new, 10⟩

/-- C3 counterexample: with draws `[0,1,0,1,0]` over a store holding keys 5
and 3 at equal estimate 0, the source's `sample` keeps the earliest draw
(key 5), not the lower hashed-key value (key 3) demanded by the claim. -/
theorem sample_tiebreak_counterexample :
    sampleCexStore.sample (fun _ => 0) [0, 1, 0, 1, 0] =
      some (some (SampleItem.new 5 0)) ∧
    sampleCexStore.sampleSpec (fun _ => 0) [0, 1, 0, 1, 0] =
      some (some (SampleItem.new 3 0)) ∧
    SampleItem.new 5 0 ≠ SampleItem.new 3 0 :=
  ⟨rfl, rfl, by decide⟩

theorem option_mapM_some {f : Nat → Option SampleItem} {dl : List Nat}
    (h : ∀ i ∈ dl, (f i).isSome = true) :
    ∃ items, dl.mapM f = some items ∧ items.length = dl.length := by
  induction dl with
  | nil => exact ⟨[], rfl, rfl⟩
  | cons d rest ih =>
    obtain ⟨items, hitems, hlen⟩ := ih (fun i hi => h i (List.mem_cons_of_mem d hi))
    have hd : (f d).isSome = true := h d (by simp)
    obtain ⟨y, hy⟩ := Option.isSome_iff_exists.mp hd
    refine ⟨y :: items, ?_, by simp [hlen]⟩
    rw [List.mapM_cons]
    simp only [bind, hy, hitems, Option.some_bind, pure, Option.map_some']

/-- C3 (amended): for the empty store `sample` returns none; for a non-empty
store and five in-range draws it returns some sample, namely — among the five
drawn resident slots — the one with the lowest frequency estimate, where the
earliest such draw wins when several draws tie on the lowest estimate (the
selection loop replaces the incumbent only on a strictly lower estimate, so
the tie-break is draw order, not hashed-key value). -/
theorem sample_lowest_estimate_first_draw (V : Type) (s : Storage V) (est : Nat → Int)
    (draws : List Nat) :
    (s.data.length = 0 → s.sample est draws = some none) ∧
    (s.data.length ≠ 0 → SAMPLES_NUM ≤ draws.length →
      (∀ i ∈ draws.take SAMPLES_NUM, i < s.data.length) →
      ∃ r idx items,
        s.sample est draws = some (some r) ∧
        (draws.take SAMPLES_NUM).mapM (sampleItemAt s est) = some items ∧
        items.length = SAMPLES_NUM ∧
        items.get? idx = some r ∧
        (∀ x ∈ items, r.estimate ≤ x.estimate) ∧
        (∀ j < idx, ∀ y, items.get? j = some y → r.estimate < y.estimate) ∧
        r.key ∈ keysOf s.data ∧ r.estimate = est r.key) := by
  refine ⟨(storage_sample_spec s est draws).1, ?_⟩
  intro hne hlen hvalid
  have hsome : ∀ i ∈ draws.take SAMPLES_NUM, (sampleItemAt s est i).isSome = true := by
    intro i hi
    unfold sampleItemAt
    rw [Option.isSome_map']
    rw [List.get?_eq_getElem?, List.getElem?_eq_getElem (hvalid i hi)]
    rfl
  obtain ⟨items, hitems, hlen'⟩ := option_mapM_some hsome
  have hlen5 : items.length = SAMPLES_NUM := by
    rw [hlen', List.length_take]
    omega
  have hnil : items ≠ [] := by
    intro hEq
    rw [hEq] at hlen5
    simp [SAMPLES_NUM] at hlen5
  obtain ⟨r, idx, hs, hget, hmin, hpre, hkey, hest⟩ :=
    (storage_sample_spec s est draws).2 items hitems hne hnil
  exact ⟨r, idx, items, hs, hitems, hlen5, hget, hmin, hpre, hkey, hest⟩

/-- Witness for `sample_lowest_estimate_first_draw` on the two-entry store. -/
theorem sample_lowest_estimate_first_draw_witness :
    (sampleCexStore.data.length ≠ 0 ∧ SAMPLES_NUM ≤ ([0, 1, 0, 1, 0] : List Nat).length) ∧
    (∃ r idx items,
      sampleCexStore.sample (fun _ => 0) [0, 1, 0, 1, 0] = some (some r) ∧
      (([0, 1, 0, 1, 0] : List Nat).take SAMPLES_NUM).mapM
        (sampleItemAt sampleCexStore (fun _ => 0)) = some items ∧
      items.length = SAMPLES_NUM ∧
      items.get? idx = some r ∧
      (∀ x ∈ items, r.estimate ≤ x.estimate) ∧
      (∀ j < idx, ∀ y, items.get? j = some y → r.estimate < y.estimate) ∧
      r.key ∈ keysOf sampleCexStore.data ∧ r.estimate = (fun _ => (0 : Int)) r.key) :=
  ⟨⟨by decide, by decide⟩,
    (sample_lowest_estimate_first_draw Nat sampleCexStore (fun _ => 0) [0, 1, 0, 1, 0]).2
      (by decide) (by decide) (by decide)⟩

/-! ### Cache-call dispatch lemmas -/

theorem storage_insert_registered (s : Storage V) (k : Nat) (item : Item V) {ttl : Nat}
    (h : ttl ≠ 0) (now : Nat) :
    ∃ ks, (now + ttl, ks) ∈
        (s.insert_with_ttl k item ttl now).1.expiration_map.buckets ∧ k ∈ ks :=
  em_insert_registered _ k h now

theorem remove_victim_store (s : CacheState V) (victim : Option SampleItem) :
    (s.remove_victim victim).1.store =
      match victim with
      | none => s.store
      | some vi => (s.store.remove vi.key).1 := by
  cases victim with
  | none => rfl
  | some vi =>
    show (s.remove_victim (some vi)).1.store = (s.store.remove vi.key).1
    simp only [CacheState.remove_victim]
    rcases hrem : s.store.remove vi.key with ⟨st', o⟩
    cases o with
    | none => rfl
    | some r => rfl

theorem can_be_insert_store {s s₂ : CacheState V} {k now : Nat} {draws : List Nat}
    {b : Bool} {r : Except (Option SampleItem) (Option SampleItem)}
    (h : s.can_be_insert k now draws = some (s₂, b, r)) :
    s₂.store = s.store ∧ s₂.admitter = s.admitter := by
  unfold CacheState.can_be_insert at h
  split at h
  · cases h
    exact ⟨rfl, rfl⟩
  · split at h
    · cases h
      exact ⟨rfl, rfl⟩
    · split at h
      · cases h
      · cases h
      · split at h
        · cases h
          exact ⟨rfl, rfl⟩
        · cases h
          exact ⟨rfl, rfl⟩

/-- The admitted branch of `Cache::insert_with_ttl`: the final store is the
post-cleanup store, with the victim (if any) removed, with the new entry
written; well-formedness is preserved along the way. -/
theorem cache_insert_admitted_store {s : CacheState V} {k : Nat} {v : V} {ttl now : Nat}
    {draws : List Nat} {s' : CacheState V} {res : InsertOutcome V} {prev : Option V}
    (hins : s.insert_with_ttl k v ttl now draws = some (s', res))
    (hret : res.returned = .ok prev) :
    ∃ st1 : Storage V,
      s'.store = (st1.insert_with_ttl k (Item.new k v) ttl now).1 ∧
      (s.store.WF → st1.WF) := by
  simp only [CacheState.insert_with_ttl] at hins
  split at hins
  · cases hins
  · rename_i s₂ sampled victim heq
    have hstore : s₂.store = (s.store.cleanup now).1 := (can_be_insert_store heq).1
    cases hins
    refine ⟨(({ s₂ with admitter := s₂.admitter.increment k } : CacheState V).remove_victim
        victim).1.store, rfl, ?_⟩
    intro hWF
    rw [remove_victim_store]
    have hclWF : (s.store.cleanup now).1.WF := storage_cleanup_wf hWF now
    cases victim with
    | none =>
      show s₂.store.WF
      rw [hstore]
      exact hclWF
    | some vi =>
      show (s₂.store.remove vi.key).1.WF
      rw [hstore]
      exact storage_remove_wf hclWF vi.key
  · rename_i s₂ sampled victim heq
    cases hins
    cases hret

/-- C5: `insert_with_ttl(k, v, 0)` stores an entry that never expires: the
expiration tracker records nothing and returns none, the stored entry carries
no expiry instant, and `contains`/`get` keep reporting it present at every
later time on the resulting state (until it is removed, evicted or
replaced). -/
theorem insert_zero_ttl_never_expires (V : Type) (s : CacheState V) (k : Nat) (v : V)
    (now : Nat) (draws : List Nat) (s' : CacheState V) (res : InsertOutcome V)
    (prev : Option V) (hWF : s.store.WF)
    (hins : s.insert_with_ttl k v 0 now draws = some (s', res))
    (hret : res.returned = .ok prev) :
    (∀ (m : ExpirationMap) (k' now' : Nat), m.insert k' 0 now' = (m, none)) ∧
    lookupData s'.store.data k = some ⟨none, k, v⟩ ∧
    (∀ now', s'.containsKey k now' = true) ∧
    (∀ now', s'.store.get k now' = some ⟨none, k, v⟩) := by
  obtain ⟨st1, hstore, hwf1⟩ := cache_insert_admitted_store hins hret
  have hWF1 := hwf1 hWF
  have hlk : lookupData s'.store.data k = some ⟨none, k, v⟩ := by
    rw [hstore]
    have h := storage_insert_lookup_self hWF1 k (Item.new k v) 0 now
    simpa [Item.new] using h
  refine ⟨fun m k' now' => rfl, hlk, ?_, ?_⟩
  · intro now'
    unfold CacheState.containsKey
    exact storage_contains_of_lookup_some hlk (Or.inl rfl)
  · intro now'
    exact storage_get_of_no_expiry hlk rfl now'

/-- A fresh two-slot cache state used by the insertion witnesses. -/
def cacheFresh2 : CacheState Nat :=
  ⟨⟨[], ⟨[]⟩, 2⟩, ⟨fun _ => 0, ∅, 0, 10000, ∅, ∅⟩, none⟩

/-- A default insertion result, used only to give `Option.getD` a fallback. -/
def dummyOutcome : CacheState Nat × InsertOutcome Nat :=
  (cacheFresh2, ⟨[], false, none, .error none⟩)

/-- The result of inserting key 1 with value 42 and no ttl into the fresh
cache at time 0. -/
def c5run : CacheState Nat × InsertOutcome Nat :=
  (cacheFresh2.insert_with_ttl 1 42 0 0 []).getD dummyOutcome

/-- Witness for `insert_zero_ttl_never_expires`. -/
theorem insert_zero_ttl_never_expires_witness :
    cacheFresh2.insert_with_ttl 1 42 0 0 [] = some (c5run.1, c5run.2) ∧
    c5run.2.returned = .ok none ∧
    lookupData c5run.1.store.data 1 = some ⟨none, 1, 42⟩ ∧
    c5run.1.containsKey 1 999999 = true :=
  ⟨rfl, rfl,
    (insert_zero_ttl_never_expires Nat cacheFresh2 1 42 0 [] c5run.1 c5run.2 none
      (by unfold Storage.WF KeysNodup; decide) rfl rfl).2.1,
    (insert_zero_ttl_never_expires Nat cacheFresh2 1 42 0 [] c5run.1 c5run.2 none
      (by unfold Storage.WF KeysNodup; decide) rfl rfl).2.2.1 999999⟩

/-- C4: after a successful `insert_with_ttl(k, v, d)` with `d > 0` (whole
seconds, the granularity of the TTL subsystem), `contains(k)` is true
immediately, `contains(k)` is false at every time strictly past `now + d`
with no cleanup required (lazy expiration), and the entry is physically
removed from the map by any subsequent cleanup run after that point. -/
theorem insert_ttl_expires (V : Type) (s : CacheState V) (k : Nat) (v : V)
    (d now : Nat) (draws : List Nat) (s' : CacheState V) (res : InsertOutcome V)
    (prev : Option V) (hWF : s.store.WF) (hd : d ≠ 0)
    (hins : s.insert_with_ttl k v d now draws = some (s', res))
    (hret : res.returned = .ok prev) :
    s'.containsKey k now = true ∧
    (∀ now', now + d < now' → s'.containsKey k now' = false) ∧
    (∀ now', now + d < now' → lookupData (s'.store.cleanup now').1.data k = none) := by
  obtain ⟨st1, hstore, hwf1⟩ := cache_insert_admitted_store hins hret
  have hWF1 := hwf1 hWF
  have hlk : lookupData s'.store.data k = some ⟨some (now + d), k, v⟩ := by
    rw [hstore]
    have h := storage_insert_lookup_self hWF1 k (Item.new k v) d now
    simpa [Item.new, hd] using h
  have hWF' : s'.store.WF := by
    rw [hstore]
    exact storage_insert_wf hWF1 k (Item.new k v) d now
  refine ⟨?_, ?_, ?_⟩
  · unfold CacheState.containsKey
    exact storage_contains_of_lookup_some hlk (Or.inr ⟨now + d, rfl, by omega⟩)
  · intro now' hlt
    unfold CacheState.containsKey Storage.contains
    rw [storage_get_of_expiry hlk rfl, if_pos hlt]
    rfl
  · intro now' hlt
    obtain ⟨ks, hbmem, hkmem⟩ : ∃ ks,
        (now + d, ks) ∈ s'.store.expiration_map.buckets ∧ k ∈ ks := by
      rw [hstore]
      exact storage_insert_registered st1 k (Item.new k v) hd now
    refine storage_cleanup_expired hWF' hlk rfl (by omega) ?_
    exact em_cleanup_mem hbmem hkmem (by omega)

/-- The result of inserting key 1 with value 7 and a 3-second ttl into the
fresh cache at time 10. -/
def c4run : CacheState Nat × InsertOutcome Nat :=
  (cacheFresh2.insert_with_ttl 1 7 3 10 []).getD dummyOutcome

/-- Witness for `insert_ttl_expires`: inserted at time 10 with ttl 3, the
entry is present at 10, lazily absent at 14, and physically removed by a
cleanup at 14. -/
theorem insert_ttl_expires_witness :
    cacheFresh2.insert_with_ttl 1 7 3 10 [] = some (c4run.1, c4run.2) ∧
    c4run.2.returned = .ok none ∧
    c4run.1.containsKey 1 10 = true ∧
    c4run.1.containsKey 1 14 = false ∧
    lookupData (c4run.1.store.cleanup 14).1.data 1 = none :=
  ⟨rfl, rfl,
    (insert_ttl_expires Nat cacheFresh2 1 7 3 10 [] c4run.1 c4run.2 none
      (by unfold Storage.WF KeysNodup; decide) (by decide) rfl rfl).1,
    (insert_ttl_expires Nat cacheFresh2 1 7 3 10 [] c4run.1 c4run.2 none
      (by unfold Storage.WF KeysNodup; decide) (by decide) rfl rfl).2.1 14 (by decide),
    (insert_ttl_expires Nat cacheFresh2 1 7 3 10 [] c4run.1 c4run.2 none
      (by unfold Storage.WF KeysNodup; decide) (by decide) rfl rfl).2.2 14 (by decide)⟩

theorem remove_victim_found {s : CacheState V} {vi : SampleItem} {item : Item V}
    (h : lookupData s.store.data vi.key = some item) :
    s.remove_victim (some vi) =
      ({ s with
          store := (s.store.remove vi.key).1,
          metrics := s.metrics.map (fun m => m.insert .keyEvict item.k 1) },
        some (item.k, item.v)) := by
  simp only [CacheState.remove_victim]
  rcases hrem : s.store.remove vi.key with ⟨st', o⟩
  have h2 := (storage_remove_found h).1
  rw [hrem] at h2
  simp only at h2
  subst h2
  rfl

/-- C2: on a full cache, when the incoming key is new and its estimate is
strictly below the sampled victim's, the call returns the rejection signal
`Err(Some(()))`, writes no entry for the incoming key, and still evicts the
sampled victim: the victim is removed from the store, reported to the metrics
as an eviction, and the eviction callback is invoked on it. -/
theorem reject_still_evicts (V : Type) (s : CacheState V) (k : Nat) (v : V)
    (ttl now : Nat) (draws : List Nat) (victim : SampleItem) (hWF : s.store.WF)
    (hcont : (s.store.cleanup now).1.contains k now = false)
    (hroom : (s.store.cleanup now).1.room_left = 0)
    (hsample : (s.store.cleanup now).1.sample s.admitter.estimate draws =
      some (some victim))
    (hest : s.admitter.estimate k < victim.estimate) :
    ∃ (s' : CacheState V) (res : InsertOutcome V) (vic_item : Item V),
      s.insert_with_ttl k v ttl now draws = some (s', res) ∧
      res.returned = .error (some ()) ∧
      lookupData (s.store.cleanup now).1.data victim.key = some vic_item ∧
      res.victim = some (vic_item.k, vic_item.v) ∧
      s'.store.data = (dataSwapRemove (s.store.cleanup now).1.data victim.key).2 ∧
      lookupData s'.store.data victim.key = none ∧
      s'.containsKey k now = false ∧
      s'.admitter = s.admitter ∧
      (∀ m, s.metrics = some m →
        s'.metrics = some (m.insert .keyEvict vic_item.k 1) ∧
        (m.insert .keyEvict vic_item.k 1).keys_evicted = m.keys_evicted + 1) := by
  have hclWF : (s.store.cleanup now).1.WF := storage_cleanup_wf hWF now
  obtain ⟨vic_item, hvic⟩ : ∃ item,
      lookupData (s.store.cleanup now).1.data victim.key = some item := by
    have hmem := storage_sample_key_mem hsample
    rcases hlv : lookupData (s.store.cleanup now).1.data victim.key with _ | it
    · exact absurd (lookupData_eq_none_iff.mp hlv) (by simpa using hmem)
    · exact ⟨it, rfl⟩
  have hcan : ({ s with store := (s.store.cleanup now).1 } : CacheState V).can_be_insert
      k now draws =
      some ({ s with store := (s.store.cleanup now).1 }, true, .error (some victim)) := by
    unfold CacheState.can_be_insert
    simp only [hcont, hroom, hsample, Bool.false_eq_true, if_false, gt_iff_lt,
      lt_irrefl, if_pos hest]
  have hrv := @remove_victim_found V
    { s with store := (s.store.cleanup now).1 } victim vic_item hvic
  have hinseq : s.insert_with_ttl k v ttl now draws = some
      ((({ s with store := (s.store.cleanup now).1 } : CacheState V).remove_victim
          (some victim)).1,
        ⟨(s.store.cleanup now).2, true,
          (({ s with store := (s.store.cleanup now).1 } : CacheState V).remove_victim
            (some victim)).2, .error (some ())⟩) := by
    simp only [CacheState.insert_with_ttl]
    rw [hcan]
  refine ⟨_, _, vic_item, hinseq, rfl, hvic, ?_, ?_, ?_, ?_, ?_, ?_⟩
  · rw [hrv]
  · show ((({ s with store := (s.store.cleanup now).1 } : CacheState V).remove_victim
        (some victim)).1).store.data = _
    rw [hrv]
    show ((s.store.cleanup now).1.remove victim.key).1.data = _
    rw [(storage_remove_found hvic).2.1]
  · show lookupData
        ((({ s with store := (s.store.cleanup now).1 } : CacheState V).remove_victim
          (some victim)).1).store.data victim.key = none
    rw [hrv]
    exact storage_remove_lookup_self hclWF
  · show Storage.contains
        ((({ s with store := (s.store.cleanup now).1 } : CacheState V).remove_victim
          (some victim)).1).store k now = false
    rw [hrv]
    show ((s.store.cleanup now).1.remove victim.key).1.contains k now = false
    by_cases hkv : k = victim.key
    · subst hkv
      unfold Storage.contains
      rw [storage_get_of_lookup_none (storage_remove_lookup_self hclWF) now]
      rfl
    · unfold Storage.contains at hcont ⊢
      rcases hg : ((s.store.cleanup now).1.remove victim.key).1.get k now with _ | it
      · rfl
      · exfalso
        have hlk' : lookupData ((s.store.cleanup now).1.remove victim.key).1.data k =
            lookupData (s.store.cleanup now).1.data k :=
          storage_remove_lookup_other hclWF hkv
        rcases hl2 : lookupData (s.store.cleanup now).1.data k with _ | it2
        · rw [storage_get_of_lookup_none (hlk'.trans hl2) now] at hg
          cases hg
        · rcases he2 : it2.expiration_time with _ | e2
          · rw [storage_get_of_no_expiry hl2 he2 now] at hcont
            simp at hcont
          · rw [storage_get_of_expiry hl2 he2 now] at hcont
            rw [storage_get_of_expiry (hlk'.trans hl2) he2 now] at hg
            split at hg
            · cases hg
            · rename_i hnor
              rw [if_neg hnor] at hcont
              simp at hcont
  · show ((({ s with store := (s.store.cleanup now).1 } : CacheState V).remove_victim
        (some victim)).1).admitter = s.admitter
    rw [hrv]
  · intro m hm
    constructor
    · show ((({ s with store := (s.store.cleanup now).1 } : CacheState V).remove_victim
          (some victim)).1).metrics = _
      rw [hrv]
      show s.metrics.map (fun mm => mm.insert .keyEvict vic_item.k 1) = _
      rw [hm]
      rfl
    · unfold Metrics.keys_evicted
      rw [Metrics.get_insert]
      rw [if_pos rfl]

/-- A full one-slot cache holding key 9 (doorkeeper-boosted to estimate 1),
with metrics enabled, used to witness the rejection path. -/
def c2state : CacheState Nat :=
  ⟨⟨[(9, ⟨none, 9, 99⟩)], ⟨[]⟩, 1⟩, ⟨fun _ => 0, {9}, 1, 10000, ∅, ∅⟩,
    some Metrics.new⟩

/-- Witness for `reject_still_evicts`: inserting new key 2 (estimate 0) into
the full cache samples resident key 9 (estimate 1) and rejects while
evicting it. -/
theorem reject_still_evicts_witness :
    ((c2state.store.cleanup 0).1.contains 2 0 = false ∧
     (c2state.store.cleanup 0).1.room_left = 0 ∧
     (c2state.store.cleanup 0).1.sample c2state.admitter.estimate [0, 0, 0, 0, 0] =
       some (some ⟨9, 1⟩) ∧
     c2state.admitter.estimate 2 < (⟨9, 1⟩ : SampleItem).estimate) ∧
    (∃ (s' : CacheState Nat) (res : InsertOutcome Nat) (vic_item : Item Nat),
      c2state.insert_with_ttl 2 22 0 0 [0, 0, 0, 0, 0] = some (s', res) ∧
      res.returned = .error (some ()) ∧
      lookupData (c2state.store.cleanup 0).1.data (⟨9, 1⟩ : SampleItem).key =
        some vic_item ∧
      res.victim = some (vic_item.k, vic_item.v) ∧
      s'.store.data =
        (dataSwapRemove (c2state.store.cleanup 0).1.data
          (⟨9, 1⟩ : SampleItem).key).2 ∧
      lookupData s'.store.data (⟨9, 1⟩ : SampleItem).key = none ∧
      s'.containsKey 2 0 = false ∧
      s'.admitter = c2state.admitter ∧
      (∀ m, c2state.metrics = some m →
        s'.metrics = some (m.insert .keyEvict vic_item.k 1) ∧
        (m.insert .keyEvict vic_item.k 1).keys_evicted = m.keys_evicted + 1)) :=
  ⟨⟨by decide, by decide, by decide, by decide⟩,
    reject_still_evicts Nat c2state 2 22 0 0 [0, 0, 0, 0, 0] ⟨9, 1⟩
      (by unfold Storage.WF KeysNodup; decide) (by decide) (by decide) (by decide)
      (by decide)⟩

/-- First insert of the metrics run: key 1, value 41, fresh cache with
metrics enabled. -/
def c8s1 : CacheState Nat × InsertOutcome Nat :=
  (cacheFresh2.with_metrics.insert_with_ttl 1 41 0 0 []).getD dummyOutcome

/-- Second insert of the metrics run: same key 1, value 42 — an update. -/
def c8s2 : CacheState Nat × InsertOutcome Nat :=
  ((c8s1.1.insert_with_ttl 1 42 0 0 [])).getD dummyOutcome

set_option maxRecDepth 4000 in
/-- C8 counterexample: the second insert of key 1 is an update (it returns
the previous value 41), yet the metrics record BOTH a key-update and a
key-insert for it: after the two calls `keys_inserted = 2` and
`keys_updated = 1`, refuting "the insert-vs-update metric records one or the
other" — the admitted path of `Cache::insert_with_ttl` records `KeyInsert`
unconditionally, on top of the `KeyUpdate` recorded by `can_be_insert`. -/
theorem update_records_both_metrics_counterexample :
    cacheFresh2.with_metrics.insert_with_ttl 1 41 0 0 [] = some (c8s1.1, c8s1.2) ∧
    c8s1.1.insert_with_ttl 1 42 0 0 [] = some (c8s2.1, c8s2.2) ∧
    c8s2.2.returned = .ok (some 41) ∧
    c8s1.1.metrics.map (fun m => (m.keys_inserted, m.keys_updated)) = some (1, 0) ∧
    c8s2.1.metrics.map (fun m => (m.keys_inserted, m.keys_updated)) = some (2, 1) := by
  refine ⟨rfl, rfl, rfl, ?_, ?_⟩ <;> decide

/-- C8 (amended): for a resident, non-expiring key `k` holding `v1`,
`insert(k, v2)` succeeds unconditionally, returns `v1` as the previous value,
leaves `get(k) = v2` afterwards, and triggers neither sampling nor an
admission eviction; the metrics record it as a key-update AND additionally as
a key-insert (the admitted path always records key-insert, so an update
increments both counters rather than one or the other). -/
theorem update_unconditional (V : Type) (s : CacheState V) (k : Nat) (v1 v2 : V)
    (now : Nat) (draws : List Nat) (m : Metrics) (hWF : s.store.WF)
    (hres : lookupData s.store.data k = some ⟨none, k, v1⟩)
    (hm : s.metrics = some m) :
    ∃ (s' : CacheState V) (res : InsertOutcome V),
      s.insert_with_ttl k v2 0 now draws = some (s', res) ∧
      res.returned = .ok (some v1) ∧
      res.sampled = false ∧
      res.victim = none ∧
      (∀ now', s'.store.get k now' = some ⟨none, k, v2⟩) ∧
      (∀ now', (s'.get k now').2 = some v2) ∧
      s'.metrics = some ((m.insert .keyUpdate k 1).insert .keyInsert k 1) ∧
      ((m.insert .keyUpdate k 1).insert .keyInsert k 1).keys_updated =
        m.keys_updated + 1 ∧
      ((m.insert .keyUpdate k 1).insert .keyInsert k 1).keys_inserted =
        m.keys_inserted + 1 := by
  have hclWF : (s.store.cleanup now).1.WF := storage_cleanup_wf hWF now
  have hlk_cl : lookupData (s.store.cleanup now).1.data k = some ⟨none, k, v1⟩ :=
    storage_cleanup_alive hWF hres (Or.inl rfl)
  have hcont : (s.store.cleanup now).1.contains k now = true :=
    storage_contains_of_lookup_some hlk_cl (Or.inl rfl)
  have hcan : ({ s with store := (s.store.cleanup now).1 } : CacheState V).can_be_insert
      k now draws =
      some ({ s with
          store := (s.store.cleanup now).1,
          metrics := s.metrics.map (fun mm => mm.insert .keyUpdate k 1) },
        false, .ok none) := by
    unfold CacheState.can_be_insert
    simp only [hcont, if_true]
  have hinseq : s.insert_with_ttl k v2 0 now draws = some
      (⟨((s.store.cleanup now).1.insert_with_ttl k (Item.new k v2) 0 now).1,
        s.admitter.increment k,
        (s.metrics.map (fun mm => mm.insert .keyUpdate k 1)).map
          (fun mm => mm.insert .keyInsert k 1)⟩,
       ⟨(s.store.cleanup now).2, false, none,
        .ok ((((s.store.cleanup now).1.insert_with_ttl k
          (Item.new k v2) 0 now).2).map (fun it => it.v))⟩) := by
    simp only [CacheState.insert_with_ttl]
    rw [hcan]
    rfl
  have hq2 : ((s.store.cleanup now).1.insert_with_ttl k (Item.new k v2) 0 now).2 =
      some ⟨none, k, v1⟩ := by
    rw [(storage_insert_spec _ k (Item.new k v2) 0 now).2.1]
    exact hlk_cl
  have hget : ∀ now', (((s.store.cleanup now).1.insert_with_ttl k
      (Item.new k v2) 0 now).1).get k now' = some ⟨none, k, v2⟩ := by
    intro now'
    have h := storage_insert_lookup_self hclWF k (Item.new k v2) 0 now
    rw [if_pos rfl] at h
    exact storage_get_of_no_expiry h rfl now'
  refine ⟨_, _, hinseq, ?_, rfl, rfl, hget, ?_, ?_, ?_, ?_⟩
  · show Except.ok ((((s.store.cleanup now).1.insert_with_ttl k
      (Item.new k v2) 0 now).2).map (fun it => it.v)) = Except.ok (some v1)
    rw [hq2]
    rfl
  · intro now'
    show ((((s.store.cleanup now).1.insert_with_ttl k
      (Item.new k v2) 0 now).1).get k now').map (fun it => it.v) = some v2
    rw [hget now']
    rfl
  · show (s.metrics.map (fun mm => mm.insert .keyUpdate k 1)).map
      (fun mm => mm.insert .keyInsert k 1) = _
    rw [hm]
    rfl
  · unfold Metrics.keys_updated
    rw [Metrics.get_insert, Metrics.get_insert]
    rw [if_pos rfl, if_neg (by decide)]
  · unfold Metrics.keys_inserted
    rw [Metrics.get_insert, Metrics.get_insert]
    rw [if_neg (by decide), if_pos rfl]

/-- A one-entry cache with metrics enabled, key 1 resident with value 41. -/
def c8state : CacheState Nat :=
  ⟨⟨[(1, ⟨none, 1, 41⟩)], ⟨[]⟩, 2⟩, ⟨fun _ => 0, ∅, 1, 10000, ∅, ∅⟩,
    some Metrics.new⟩

/-- Witness for `update_unconditional`. -/
theorem update_unconditional_witness :
    lookupData c8state.store.data 1 = some ⟨none, 1, 41⟩ ∧
    (∃ (s' : CacheState Nat) (res : InsertOutcome Nat),
      c8state.insert_with_ttl 1 42 0 0 [] = some (s', res) ∧
      res.returned = .ok (some 41) ∧
      res.sampled = false ∧
      res.victim = none ∧
      (∀ now', s'.store.get 1 now' = some ⟨none, 1, 42⟩) ∧
      (∀ now', (s'.get 1 now').2 = some 42) ∧
      s'.metrics = some ((Metrics.new.insert .keyUpdate 1 1).insert .keyInsert 1 1) ∧
      ((Metrics.new.insert .keyUpdate 1 1).insert .keyInsert 1 1).keys_updated =
        Metrics.new.keys_updated + 1 ∧
      ((Metrics.new.insert .keyUpdate 1 1).insert .keyInsert 1 1).keys_inserted =
        Metrics.new.keys_inserted + 1) :=
  ⟨rfl,
    update_unconditional Nat c8state 1 41 42 0 [] Metrics.new
      (by unfold Storage.WF KeysNodup; decide) rfl rfl⟩

/-! ### Capacity invariant -/

/-- The state the admitted full-cache path of `Cache::insert_with_ttl` reaches
right before removing the victim: post-cleanup store, estimator incremented
for the incoming key. -/
def afterAdmit (s : CacheState V) (k now : Nat) : CacheState V :=
  { store := (s.store.cleanup now).1
    admitter := s.admitter.increment k
    metrics := s.metrics }

/-- One `insert_with_ttl` call from a within-capacity state stays within
capacity, preserves the capacity, and — when at decision time the (cleaned)
cache is full and the key absent — either returns the rejection signal or
admits while evicting exactly one sampled victim. -/
theorem cache_insert_len {s : CacheState V} {k : Nat} {v : V} {ttl now : Nat}
    {draws : List Nat} {s' : CacheState V} {res : InsertOutcome V}
    (hins : s.insert_with_ttl k v ttl now draws = some (s', res))
    (hlen : s.store.data.length ≤ s.store.capacity) :
    s'.store.data.length ≤ s.store.capacity ∧
    s'.store.capacity = s.store.capacity ∧
    (((s.store.cleanup now).1.contains k now = false ∧
      (s.store.cleanup now).1.room_left = 0) →
      res.returned = .error (some ()) ∨
      ((∃ p, res.victim = some p) ∧ ∃ pv, res.returned = .ok pv)) := by
  have hcl_len : (s.store.cleanup now).1.data.length ≤ s.store.data.length :=
    storage_cleanup_len_le s.store now
  have hcl_cap : (s.store.cleanup now).1.capacity = s.store.capacity :=
    storage_cleanup_capacity s.store now
  simp only [CacheState.insert_with_ttl] at hins
  split at hins
  · cases hins
  · rename_i s₂ sampled victim heq
    cases hins
    unfold CacheState.can_be_insert at heq
    split at heq
    · rename_i hcond
      have hcondc : (s.store.cleanup now).1.contains k now = true := hcond
      obtain ⟨old, hold⟩ := storage_contains_true_lookup hcondc
      cases heq
      refine ⟨?_, ?_, ?_⟩
      · show (((s.store.cleanup now).1.insert_with_ttl k (Item.new k v) ttl
            now).1).data.length ≤ s.store.capacity
        rw [storage_insert_len_found hold]
        omega
      · show (((s.store.cleanup now).1.insert_with_ttl k (Item.new k v) ttl
            now).1).capacity = s.store.capacity
        rw [(storage_insert_spec (s.store.cleanup now).1 k (Item.new k v) ttl now).2.2]
        exact hcl_cap
      · intro hfull
        rw [hfull.1] at hcondc
        cases hcondc
    · rename_i hcond
      split at heq
      · rename_i hroom
        have hroomc : (s.store.cleanup now).1.room_left > 0 := hroom
        cases heq
        refine ⟨?_, ?_, ?_⟩
        · show (((s.store.cleanup now).1.insert_with_ttl k (Item.new k v) ttl
              now).1).data.length ≤ s.store.capacity
          have hle := storage_insert_len_le (s.store.cleanup now).1 k (Item.new k v)
            ttl now
          simp only [Storage.room_left, Storage.len] at hroomc
          omega
        · show (((s.store.cleanup now).1.insert_with_ttl k (Item.new k v) ttl
              now).1).capacity = s.store.capacity
          rw [(storage_insert_spec (s.store.cleanup now).1 k (Item.new k v) ttl
            now).2.2]
          exact hcl_cap
        · intro hfull
          rw [hfull.2] at hroomc
          exact absurd hroomc (lt_irrefl 0)
      · rename_i hroom
        split at heq
        · cases heq
        · cases heq
        · rename_i vict hsamp
          have hsampc : (s.store.cleanup now).1.sample s.admitter.estimate draws =
              some (some vict) := hsamp
          have hmem := storage_sample_key_mem hsampc
          obtain ⟨vit, hvit⟩ : ∃ it,
              lookupData (s.store.cleanup now).1.data vict.key = some it := by
            rcases hlv : lookupData (s.store.cleanup now).1.data vict.key with _ | it
            · exact absurd hmem (lookupData_eq_none_iff.mp hlv)
            · exact ⟨it, rfl⟩
          split at heq
          · cases heq
          · rename_i hge
            cases heq
            refine ⟨?_, ?_, ?_⟩
            · show (((((afterAdmit s k now).remove_victim
                  (some vict)).1.store).insert_with_ttl k (Item.new k v) ttl
                  now).1).data.length ≤ s.store.capacity
              rw [remove_victim_store]
              show (((((afterAdmit s k now).store.remove
                  vict.key).1).insert_with_ttl k (Item.new k v) ttl
                  now).1).data.length ≤ s.store.capacity
              show (((((s.store.cleanup now).1.remove vict.key).1).insert_with_ttl
                  k (Item.new k v) ttl now).1).data.length ≤ s.store.capacity
              have h1 := storage_remove_len_found hvit
              have h2 := storage_insert_len_le ((s.store.cleanup now).1.remove
                vict.key).1 k (Item.new k v) ttl now
              omega
            · show (((((afterAdmit s k now).remove_victim
                  (some vict)).1.store).insert_with_ttl k (Item.new k v) ttl
                  now).1).capacity = s.store.capacity
              rw [remove_victim_store]
              show (((((s.store.cleanup now).1.remove vict.key).1).insert_with_ttl
                  k (Item.new k v) ttl now).1).capacity = s.store.capacity
              rw [(storage_insert_spec ((s.store.cleanup now).1.remove vict.key).1
                k (Item.new k v) ttl now).2.2, storage_remove_capacity]
              exact hcl_cap
            · intro hfull
              refine Or.inr ⟨⟨(vit.k, vit.v), ?_⟩, ⟨_, rfl⟩⟩
              show ((afterAdmit s k now).remove_victim (some vict)).2 =
                some (vit.k, vit.v)
              rw [@remove_victim_found V (afterAdmit s k now) vict vit hvit]
  · rename_i s₂ sampled victim heq
    cases hins
    unfold CacheState.can_be_insert at heq
    split at heq
    · cases heq
    · split at heq
      · cases heq
      · split at heq
        · cases heq
        · cases heq
        · rename_i vict hsamp
          split at heq
          · rename_i hlt
            cases heq
            refine ⟨?_, ?_, fun _ => Or.inl rfl⟩
            · show ((({ s with store := (s.store.cleanup now).1 } : CacheState V
                  ).remove_victim (some vict)).1.store).data.length ≤
                  s.store.capacity
              rw [remove_victim_store]
              show (((s.store.cleanup now).1.remove vict.key).1).data.length ≤
                s.store.capacity
              have := storage_remove_len_le (s.store.cleanup now).1 vict.key
              omega
            · show ((({ s with store := (s.store.cleanup now).1 } : CacheState V
                  ).remove_victim (some vict)).1.store).capacity = s.store.capacity
              rw [remove_victim_store]
              show (((s.store.cleanup now).1.remove vict.key).1).capacity =
                s.store.capacity
              rw [storage_remove_capacity]
              exact hcl_cap
          · cases heq

/-- The reachable-state invariant behind C1: the tracked capacity is the
construction capacity, and the resident count never exceeds it. -/
def CapInv (C : Nat) (s : CacheState V) : Prop :=
  s.store.capacity = C ∧ s.store.data.length ≤ C

theorem applyCacheOp_capInv {C : Nat} {s s' : CacheState V} {op : CacheOp V}
    (hInv : CapInv C s) (h : applyCacheOp s op = some s') : CapInv C s' := by
  obtain ⟨hcap, hlen⟩ := hInv
  cases op with
  | insert k v expiration now draws =>
    simp only [applyCacheOp, Option.map_eq_some'] at h
    obtain ⟨⟨s₂, res⟩, hins, hs'⟩ := h
    have hc := cache_insert_len hins (by rw [hcap]; exact hlen)
    rw [← hs']
    refine ⟨?_, ?_⟩
    · rw [hc.2.1, hcap]
    · have := hc.1
      rw [hcap] at this
      exact this
  | get k now =>
    simp only [applyCacheOp] at h
    cases h
    exact ⟨hcap, hlen⟩
  | remove k =>
    simp only [applyCacheOp] at h
    cases h
    refine ⟨?_, ?_⟩
    · show (s.store.remove k).1.capacity = C
      rw [storage_remove_capacity]
      exact hcap
    · show (s.store.remove k).1.data.length ≤ C
      have := storage_remove_len_le s.store k
      omega
  | clear =>
    simp only [applyCacheOp] at h
    cases h
    refine ⟨?_, ?_⟩
    · show (s.store.clear).capacity = C
      exact hcap
    · show (s.store.clear).data.length ≤ C
      exact Nat.zero_le C

theorem runCache_capInv {C : Nat} {ops : List (CacheOp V)} :
    ∀ {s s' : CacheState V}, CapInv C s → runCache s ops = some s' →
      CapInv C s' := by
  induction ops with
  | nil =>
    intro s s' hInv h
    simp only [runCache, List.foldlM] at h
    exact (Option.some_inj.mp h) ▸ hInv
  | cons op rest ih =>
    intro s s' hInv h
    simp only [runCache, List.foldlM] at h
    rcases hop : applyCacheOp s op with _ | s₂
    · rw [hop] at h
      cases h
    · rw [hop] at h
      have h2 : runCache s₂ rest = some s' := h
      exact ih (applyCacheOp_capInv hInv hop) h2

theorem cache_new_capInv {C : Nat} {s : CacheState V}
    (h : (Cache.new C : Option (CacheState V)) = some s) : CapInv C s := by
  unfold Cache.new Cache.withWindowSize at h
  split at h
  · cases h
  · split at h
    · cases h
    · split at h
      · cases h
      · have ht : TinyLFUCache.new MAX_WINDOW_SIZE =
            some ⟨fun _ => 0, ∅, 0, min MAX_WINDOW_SIZE MAX_WINDOW_SIZE, ∅, ∅⟩ := rfl
        rw [ht, Option.map_some'] at h
        cases h
        exact ⟨rfl, Nat.zero_le C⟩

/-- C1: for every capacity C > 0, every state reached from `Cache::new(C)` by
a sequence of cache calls holds at most C resident entries; a further insert
keeps the count at most C, and when the post-cleanup store is full with the
key absent, the call either returns the rejection signal `Err(Some(()))` or
admits while evicting exactly one resident entry (the sampled victim is
reported evicted and the call returns `Ok`) — never admitted without an
eviction while at capacity. -/
theorem capacity_never_exceeded (V : Type) (C : Nat) (s₀ s₁ : CacheState V)
    (ops : List (CacheOp V))
    (hnew : (Cache.new C : Option (CacheState V)) = some s₀)
    (hrun : runCache s₀ ops = some s₁) :
    s₁.store.len ≤ C ∧
    ∀ (k : Nat) (v : V) (ttl now : Nat) (draws : List Nat)
      (s₂ : CacheState V) (res : InsertOutcome V),
      s₁.insert_with_ttl k v ttl now draws = some (s₂, res) →
      s₂.store.len ≤ C ∧
      (((s₁.store.cleanup now).1.contains k now = false ∧
        (s₁.store.cleanup now).1.room_left = 0) →
        res.returned = .error (some ()) ∨
        ((∃ p, res.victim = some p) ∧ ∃ pv, res.returned = .ok pv)) := by
  obtain ⟨hcap, hlen⟩ := runCache_capInv (cache_new_capInv hnew) hrun
  refine ⟨hlen, ?_⟩
  intro k v ttl now draws s₂ res hins
  have hc := cache_insert_len hins (by rw [hcap]; exact hlen)
  refine ⟨?_, hc.2.2⟩
  have := hc.1
  rw [hcap] at this
  exact this

/-- A throwaway cache state for `Option.getD`. -/
def dummyCacheState : CacheState Nat :=
  ⟨⟨[], ⟨[]⟩, 0⟩, ⟨fun _ => 0, ∅, 0, 1, ∅, ∅⟩, none⟩

/-- The capacity-1 cache built by `Cache::new(1)`. -/
def c1s0 : CacheState Nat :=
  (Cache.new 1 : Option (CacheState Nat)).getD dummyCacheState

/-- Two inserts: the first is admitted into the empty cache, the second hits a
full cache with a new key and is decided by sampling. -/
def c1ops : List (CacheOp Nat) :=
  [CacheOp.insert 1 11 0 5 [], CacheOp.insert 2 22 0 5 [0]]

/-- The state after running `c1ops` on the capacity-1 cache. -/
def c1s1 : CacheState Nat := (runCache c1s0 c1ops).getD dummyCacheState

/-- Concrete check of the capacity bound: a capacity-1 cache built by
`Cache::new`, after an admitted insert and a sampled second insert, holds at
most one entry. -/
theorem capacity_never_exceeded_witness :
    (Cache.new 1 : Option (CacheState Nat)) = some c1s0 ∧
    runCache c1s0 c1ops = some c1s1 ∧ c1s1.store.len ≤ 1 :=
  ⟨rfl, rfl, (capacity_never_exceeded Nat 1 c1s0 c1s1 c1ops rfl rfl).1⟩

end Cascara
